import Mathlib

/-!
Verification development for a small poll-based static-file HTTP server.

The embedding models the three source translation units:
* `path.c`   : `contains_traversal`, `starts_with_doc_root`, `resolve_path`
* `http.c`   : `parse_http_request`, `http_reason_phrase`, `guess_mime_type`,
               `build_response_headers`
* `server.c` : the per-connection state machine (`read_client_request`,
               `prepare_response`, `make_error_response`, `send_buffer`,
               `flush_file`, `write_client_response`) and the write-phase
               close decision of the event loop.

Bytes are modelled as `Char` (the server only ever compares and copies
bytes, so any type with decidable equality works; `Char` keeps string
literals readable).  The filesystem (`realpath`, `stat`, `open`, `read`)
and the socket (`recv`, `send`) are modelled as explicit parameters: an
abstract `FS` record and explicit schedules of kernel results, one entry
per system call.
-/

/-- Convert a string literal to the byte list it denotes. -/
def toL (s : String) : List Char := s.toList

/-- The NUL byte that terminates C strings. -/
def nulC : Char := Char.ofNat 0

/-- C `strstr`-style containment: does `p` occur as a contiguous run inside `s`? -/
def hasSub : List Char → List Char → Bool
  | p, [] => p.isEmpty
  | p, s@(_ :: t) => p.isPrefixOf s || hasSub p t

/-- ASCII `tolower`, as used by `strcasecmp` in the C locale. -/
def asciiLower (c : Char) : Char :=
  if 'A' ≤ c ∧ c ≤ 'Z' then Char.ofNat (c.toNat + 32) else c

/-- C `strcasecmp(a, b) == 0`. -/
def lowerEq (a b : List Char) : Bool :=
  a.map asciiLower == b.map asciiLower

/-- C `isspace` in the default locale. -/
def isSpaceC (c : Char) : Bool :=
  c == ' ' || c == '\t' || c == '\n' || c == '\x0b' || c == '\x0c' || c == '\r'

/-- C `iscntrl` in the default locale. -/
def isCntrl (c : Char) : Bool :=
  c.toNat < 32 || c.toNat == 127

/-- Read at most `width` non-whitespace bytes (the body of a `%Ns` conversion).
Returns the token and the unconsumed remainder. -/
def takeTok : Nat → List Char → List Char × List Char
  | 0, s => ([], s)
  | _, [] => ([], [])
  | n + 1, c :: cs =>
    if isSpaceC c then ([], c :: cs)
    else
      let p := takeTok n cs
      (c :: p.1, p.2)

/-- One `%Ns` conversion of `sscanf`: skip whitespace, then read up to
`width` non-whitespace bytes. -/
def scanTok (width : Nat) (s : List Char) : List Char × List Char :=
  takeTok width (s.dropWhile isSpaceC)

/-- `sscanf(line, "%15s %4095s %15s", method, target, version)`:
returns the number of successful conversions and the three tokens. -/
def sscanf3 (line : List Char) : Nat × List Char × List Char × List Char :=
  let m := scanTok 15 line
  if m.1 = [] then (0, [], [], [])
  else
    let t := scanTok 4095 m.2
    if t.1 = [] then (1, m.1, [], [])
    else
      let v := scanTok 15 t.2
      if v.1 = [] then (2, m.1, t.1, [])
      else (3, m.1, t.1, v.1)

/-- `find_request_line_end`: index of the `'\r'` of the first `"\r\n"`,
if any (the C function returns `i - 1` for the first `i` with
`raw[i-1] = '\r'` and `raw[i] = '\n'`). -/
def find_request_line_end : List Char → Option Nat
  | '\r' :: '\n' :: _ => some 0
  | _ :: t => (find_request_line_end t).map (· + 1)
  | [] => none

/-- The request line as `sscanf` sees it: the bytes before the first
`"\r\n"`, cut at the first embedded NUL (the C code copies the line into a
NUL-terminated buffer). -/
def lineOf (raw : List Char) (le : Nat) : List Char :=
  (raw.take le).takeWhile (fun c => c != nulC)

inductive http_method_t
  | GET
  | HEAD
  | UNSUPPORTED
deriving DecidableEq, BEq, Repr

structure http_request_t where
  method : http_method_t
  target : List Char
deriving DecidableEq, Repr

/-- Result of `parse_http_request`: the C function returns 400 (out not
filled), 405 (method unsupported, target filled), or 0 (ok). -/
inductive parse_result
  | err400
  | err405 (out : http_request_t)
  | ok (out : http_request_t)
deriving DecidableEq, Repr

/-- The C return code of a `parse_result`. -/
def parse_result.code : parse_result → Nat
  | .err400 => 400
  | .err405 _ => 405
  | .ok _ => 0

/-- `parse_http_request` from `http.c`. -/
def parse_http_request (raw : List Char) : parse_result :=
  if raw.length = 0 then .err400
  else
    match find_request_line_end raw with
    | none => .err400
    | some le =>
      if le = 0 ∨ 2048 ≤ le then .err400
      else
        let r := sscanf3 (lineOf raw le)
        if r.1 ≠ 3 then .err400
        else
          let method := r.2.1
          let target := r.2.2.1
          let version := r.2.2.2
          if version ≠ toL "HTTP/1.1" ∧ version ≠ toL "HTTP/1.0" then .err400
          else
            match target with
            | '/' :: _ =>
              if target.any isCntrl then .err400
              else if lowerEq method (toL "GET") then .ok ⟨http_method_t.GET, target⟩
              else if lowerEq method (toL "HEAD") then .ok ⟨http_method_t.HEAD, target⟩
              else .err405 ⟨http_method_t.UNSUPPORTED, target⟩
            | _ => .err400

/-- The method-dispatch tail of `parse_http_request` (the code that runs
once the line shape and version have been validated), named so that lemmas
can speak about it. -/
def parseCont (m t : List Char) : parse_result :=
  match t with
  | '/' :: _ =>
    if t.any isCntrl then .err400
    else if lowerEq m (toL "GET") then .ok ⟨http_method_t.GET, t⟩
    else if lowerEq m (toL "HEAD") then .ok ⟨http_method_t.HEAD, t⟩
    else .err405 ⟨http_method_t.UNSUPPORTED, t⟩
  | _ => .err400

/-- `http_reason_phrase` from `http.c`. -/
def http_reason_phrase (status : Nat) : String :=
  if status = 200 then "OK"
  else if status = 400 then "Bad Request"
  else if status = 403 then "Forbidden"
  else if status = 404 then "Not Found"
  else if status = 405 then "Method Not Allowed"
  else "Internal Server Error"

/-- Extension dispatch table of `guess_mime_type`. -/
def mimeFromExt (ext : List Char) : String :=
  if lowerEq ext (toL ".html") || lowerEq ext (toL ".htm") then "text/html; charset=utf-8"
  else if lowerEq ext (toL ".txt") then "text/plain; charset=utf-8"
  else if lowerEq ext (toL ".css") then "text/css; charset=utf-8"
  else if lowerEq ext (toL ".js") then "application/javascript; charset=utf-8"
  else if lowerEq ext (toL ".json") then "application/json; charset=utf-8"
  else if lowerEq ext (toL ".jpg") || lowerEq ext (toL ".jpeg") then "image/jpeg"
  else if lowerEq ext (toL ".png") then "image/png"
  else if lowerEq ext (toL ".gif") then "image/gif"
  else if lowerEq ext (toL ".svg") then "image/svg+xml"
  else "application/octet-stream"

/-- `guess_mime_type` from `http.c`: dispatch on the suffix starting at the
last `'.'` (C `strrchr`). -/
def guess_mime_type (path : List Char) : String :=
  if path.contains '.' then
    mimeFromExt ('.' :: (path.reverse.takeWhile (fun c => c != '.')).reverse)
  else "application/octet-stream"

/-- The fully formatted header block that `build_response_headers` formats
(`snprintf` format string of `http.c`).  The `Date` value is a parameter:
the C code obtains it from the wall clock. -/
def headerString (status : Nat) (content_type : String) (content_length : Nat)
    (include_allow : Bool) (date : String) : List Char :=
  toL "HTTP/1.1 " ++ toL (toString status) ++ toL " " ++ toL (http_reason_phrase status) ++
  toL "\r\nDate: " ++ toL date ++
  toL "\r\nServer: comp4981-httpd/1.0\r\nConnection: close\r\nContent-Type: " ++
  toL content_type ++
  toL "\r\nContent-Length: " ++ toL (toString content_length) ++ toL "\r\n" ++
  (if include_allow then toL "Allow: GET, HEAD\r\n" else []) ++
  toL "\r\n"

/-- C `snprintf(dst, cap, ...)` writing the formatted text `s` into a buffer
whose previous contents are `dst`: writes at most `cap - 1` bytes plus a
terminating NUL (nothing at all when `cap = 0`) and returns the length the
full output would have had. -/
def snprintfL (dst : List Char) (cap : Nat) (s : List Char) : List Char × Int :=
  if cap = 0 then (dst, (s.length : Int))
  else
    let w := min s.length (cap - 1)
    (s.take w ++ [nulC] ++ dst.drop (w + 1), (s.length : Int))

/-- `build_response_headers` from `http.c`: formats the header block into
the destination buffer and returns its length, or `-1` when the buffer is
too small for the full output. -/
def build_response_headers (dst : List Char) (cap : Nat) (status : Nat)
    (content_type : String) (content_length : Nat) (include_allow : Bool)
    (date : String) : List Char × Int :=
  let s := headerString status content_type content_length include_allow date
  let w := snprintfL dst cap s
  if cap ≤ s.length then (w.1, -1) else w

/-! ### path.c -/

/-- Errors the abstract filesystem can report, mirroring the `errno`
classes `resolve_path` and `status_from_errno` distinguish:
`ENOENT`/`ENOTDIR`, `EACCES`, anything else. -/
inductive FSErr
  | noent
  | acces
  | other
deriving DecidableEq, BEq, Repr

structure FSStat where
  isReg : Bool
  size : Nat
deriving DecidableEq, Repr

/-- Abstract filesystem: `realpath`, `stat`, and `open`+contents. -/
structure FS where
  realpath : List Char → Except FSErr (List Char)
  stat : List Char → Except FSErr FSStat
  openFile : List Char → Except FSErr (List Char)

/-- Result of `resolve_path`: 0 plus the canonical path, or an HTTP status. -/
inductive RR
  | ok (path : List Char)
  | err (code : Nat)
deriving DecidableEq, Repr

/-- `contains_traversal` from `path.c`. -/
def contains_traversal (p : List Char) : Bool :=
  p.contains '\\' ||
  p == toL "/.." ||
  (toL "/../").isPrefixOf p ||
  hasSub (toL "/../") p ||
  (decide (3 ≤ p.length) && (toL "/..").isSuffixOf p) ||
  hasSub (toL "%2e%2e") p || hasSub (toL "%2E%2E") p ||
  hasSub (toL "%2e.") p || hasSub (toL ".%2e") p || hasSub (toL "%2E.") p

/-- `starts_with_doc_root` from `path.c`: the canonical path equals the
document root, or extends it immediately with a `'/'`. -/
def starts_with_doc_root (full doc_root : List Char) : Bool :=
  doc_root.isPrefixOf full &&
  (match full.drop doc_root.length with
   | [] => true
   | '/' :: _ => true
   | _ => false)

/-- The query/fragment-stripping copy loop of `resolve_path`: copy until
NUL, `'?'`, `'#'`, or the 4095-byte capacity of the local buffer. -/
def stripTarget (t : List Char) : List Char :=
  (t.takeWhile (fun c => c != nulC && c != '?' && c != '#')).take 4095

/-- The configured default document name. -/
def default_doc : List Char := toL "index.html"

/-- Default-document handling of `resolve_path`: `"/"` becomes
`"/index.html"`, a target ending in `'/'` gets `index.html` appended
(`none` = the append would overflow the `PATH_MAX` buffer, C returns 400). -/
def normalizeTarget (target : List Char) : Option (List Char) :=
  if target = toL "/" then some (toL "/index.html")
  else if target.getLast? = some '/' then
    if 4096 < target.length + default_doc.length + 1 then none
    else some (target ++ default_doc)
  else some target

/-- The part of `resolve_path` that runs after the query/fragment strip:
traversal pre-filter, default document, candidate concatenation,
canonicalization, containment check, regular-file check, output copy. -/
def resolveAfterStrip (fs : FS) (doc_root target : List Char) (out_sz : Nat) : RR :=
  if target = [] then .err 400
  else if contains_traversal target then .err 403
  else
    match normalizeTarget target with
    | none => .err 400
    | some normalized =>
      if 4096 ≤ doc_root.length + normalized.length then .err 400
      else
        let candidate := doc_root ++ normalized
        match fs.realpath candidate with
        | .error FSErr.noent => .err 404
        | .error FSErr.acces => .err 403
        | .error FSErr.other => .err 500
        | .ok canonical =>
          if starts_with_doc_root canonical doc_root then
            match fs.stat canonical with
            | .error FSErr.noent => .err 404
            | .error FSErr.acces => .err 403
            | .error FSErr.other => .err 500
            | .ok st =>
              if st.isReg then
                if out_sz ≤ canonical.length then .err 500 else .ok canonical
              else .err 403
          else .err 403

/-- `resolve_path` from `path.c`. -/
def resolve_path (fs : FS) (doc_root url_target : List Char) (out_sz : Nat) : RR :=
  if out_sz = 0 then .err 500
  else
    match url_target with
    | '/' :: _ => resolveAfterStrip fs doc_root (stripTarget url_target) out_sz
    | _ => .err 400

/-! ### server.c -/

/-- Result of one `send` call: the kernel accepted up to `n` bytes, would
block (`EAGAIN`/`EWOULDBLOCK`), or failed hard. -/
inductive SendR
  | ok (n : Nat)
  | block
  | fail
deriving DecidableEq, Repr

/-- Result of one `recv` call: some bytes (at most the requested amount is
actually consumed), orderly shutdown (`recv` returns 0, modelled by
`data []`), would block, or a hard error. -/
inductive RecvR
  | data (bs : List Char)
  | block
  | errR
deriving DecidableEq, Repr

inductive Mode
  | reading
  | writing
deriving DecidableEq, BEq, Repr

/-- One client slot of the connection table. Byte counters of the C struct
that merely mirror a buffer's length (`req_len`, `hdr_len`, `mem_len`,
`chunk_len`) are represented by the length of the corresponding list; an
open streaming file (`file_fd` plus kernel file offset) is represented by
`file = some rest` where `rest` is the not-yet-read part of the contents. -/
structure Conn where
  mode : Mode
  req_buf : List Char
  hdr_buf : List Char
  hdr_sent : Nat
  mem_body : List Char
  mem_sent : Nat
  is_head : Bool
  file : Option (List Char)
  file_size : Nat
  file_sent : Nat
  chunk : List Char
  chunk_sent : Nat
deriving DecidableEq, Repr

/-- `reset_client` from `server.c`. -/
def resetConn : Conn :=
  ⟨Mode.reading, [], [], 0, [], 0, false, none, 0, 0, [], 0⟩

/-- `has_header_end` from `server.c`: the buffer contains `"\r\n\r\n"`. -/
def has_header_end (l : List Char) : Bool :=
  hasSub (toL "\r\n\r\n") l

/-- Generated HTML error page of `make_error_response` (the C buffer holds
at most 511 bytes plus NUL). -/
def errorBody (status : Nat) : List Char :=
  (toL ("<html><body><h1>" ++ toString status ++ " " ++ http_reason_phrase status ++
        "</h1></body></html>\n")).take 511

/-- `make_error_response` from `server.c`: stage a memory-backed error
response and switch the slot to writing mode.  Returns `-1` when the
response headers do not fit their 2048-byte buffer. -/
def make_error_response (date : String) (c : Conn) (status : Nat)
    (is_head : Bool) (include_allow : Bool) : Int × Conn :=
  let body := errorBody status
  let c1 : Conn :=
    { c with is_head := is_head, file := none, file_size := 0, file_sent := 0,
             chunk := [], chunk_sent := 0, mem_body := body, mem_sent := 0 }
  let hdr := headerString status "text/html; charset=utf-8" body.length include_allow date
  if 2048 ≤ hdr.length then (-1, c1)
  else (0, { c1 with hdr_buf := hdr, hdr_sent := 0, mode := Mode.writing })

/-- `status_from_errno` from `server.c`. -/
def status_from_errno : FSErr → Nat
  | .noent => 404
  | .acces => 403
  | .other => 500

/-- `prepare_response` from `server.c`: parse the buffered request, resolve
the target, and stage either a 200 file/headers-only response or a
generated error response. -/
def prepare_response (fs : FS) (date : String) (doc_root : List Char) (c : Conn) :
    Int × Conn :=
  match parse_http_request c.req_buf with
  | .err400 => make_error_response date c 400 false false
  | .err405 _ => make_error_response date c 405 false true
  | .ok req =>
    let is_head := req.method == http_method_t.HEAD
    match resolve_path fs doc_root req.target 4096 with
    | .err rc =>
      let rc := if rc ≠ 400 ∧ rc ≠ 403 ∧ rc ≠ 404 then 500 else rc
      make_error_response date c rc is_head false
    | .ok fs_path =>
      match fs.stat fs_path with
      | .error e => make_error_response date c (status_from_errno e) is_head false
      | .ok st =>
        let hdr := headerString 200 (guess_mime_type fs_path) st.size false date
        if 2048 ≤ hdr.length then make_error_response date c 500 is_head false
        else
          let c2 : Conn :=
            { c with hdr_buf := hdr, hdr_sent := 0, mem_body := [], mem_sent := 0,
                     is_head := is_head, file := none, file_size := st.size,
                     file_sent := 0, chunk := [], chunk_sent := 0 }
          if is_head then (0, { c2 with mode := Mode.writing })
          else
            match fs.openFile fs_path with
            | .error e => make_error_response date c2 (status_from_errno e) is_head false
            | .ok content => (0, { c2 with file := some content, mode := Mode.writing })

/-- `read_client_request` from `server.c`: drain available bytes, reject a
request that fills the header budget without completing, hand a complete
request to `prepare_response`.  The schedule lists the successive `recv`
results; an exhausted schedule means no further bytes are available now
(the same outcome as `EAGAIN`). -/
def read_client_request (fs : FS) (date : String) (doc_root : List Char) (budget : Nat) :
    List RecvR → Conn → Int × Conn
  | [], c => (0, c)
  | RecvR.block :: _, c => (0, c)
  | RecvR.errR :: _, c => (-1, c)
  | RecvR.data bs :: tl, c =>
    if bs = [] then (-1, c)
    else
      let got := bs.take (budget - c.req_buf.length)
      let c1 := { c with req_buf := c.req_buf ++ got }
      if budget ≤ c1.req_buf.length then make_error_response date c1 400 false false
      else if has_header_end c1.req_buf then prepare_response fs date doc_root c1
      else read_client_request fs date doc_root budget tl c1

/-- `send_buffer` from `server.c`: resumable send of `buf` starting at
offset `sent`.  Returns the bytes the destination accepted, the new
offset, the C return code (1 done, 0 would-block, -1 error), and the
unconsumed remainder of the send schedule. -/
def send_buffer : List SendR → List Char → Nat → List Char × Nat × Int × List SendR
  | sched, buf, sent =>
    if buf.length ≤ sent then ([], sent, 1, sched)
    else
      match sched with
      | [] => ([], sent, 0, [])
      | SendR.ok n :: tl =>
        let acc := min n (buf.length - sent)
        let d := (buf.drop sent).take acc
        let r := send_buffer tl buf (sent + acc)
        (d ++ r.1, r.2)
      | SendR.block :: tl => ([], sent, 0, tl)
      | SendR.fail :: tl => ([], sent, -1, tl)

/-- File-streaming state of a slot: unread file contents, current chunk,
chunk sent-offset, total body bytes sent. -/
structure FileSt where
  rest : List Char
  chunk : List Char
  csent : Nat
  fsent : Nat
deriving DecidableEq, Repr

/-- The chunk-(re)load step of `flush_file`: when the current chunk is
exhausted, `read` up to 8192 bytes of the file into it. -/
def loadChunk (st : FileSt) : FileSt :=
  if st.chunk.length = 0 ∨ st.csent = st.chunk.length then
    ⟨st.rest.drop 8192, st.rest.take 8192, 0, st.fsent⟩
  else st

/-- The loop of `flush_file`: per schedule entry one `send` from the
current chunk, reloading the chunk from the file when exhausted; `read`
returning 0 (chunk exhausted and file fully read) completes the response.
An exhausted schedule means the next `send` has no result yet, i.e. the
call would block. -/
def flushAux : List SendR → FileSt → List Char × FileSt × Int
  | [], st0 =>
    if (st0.chunk.length = 0 ∨ st0.csent = st0.chunk.length) ∧ st0.rest = [] then
      ([], st0, 1)
    else ([], loadChunk st0, 0)
  | SendR.ok n :: tl, st0 =>
    if (st0.chunk.length = 0 ∨ st0.csent = st0.chunk.length) ∧ st0.rest = [] then
      ([], st0, 1)
    else
      let st := loadChunk st0
      let acc := min n (st.chunk.length - st.csent)
      let d := (st.chunk.drop st.csent).take acc
      let r := flushAux tl ⟨st.rest, st.chunk, st.csent + acc, st.fsent + acc⟩
      (d ++ r.1, r.2)
  | SendR.block :: _, st0 =>
    if (st0.chunk.length = 0 ∨ st0.csent = st0.chunk.length) ∧ st0.rest = [] then
      ([], st0, 1)
    else ([], loadChunk st0, 0)
  | SendR.fail :: _, st0 =>
    if (st0.chunk.length = 0 ∨ st0.csent = st0.chunk.length) ∧ st0.rest = [] then
      ([], st0, 1)
    else ([], loadChunk st0, -1)

/-- `flush_file` from `server.c` lifted to a slot: returns 1 immediately
when no file is being streamed. -/
def flush_file (sched : List SendR) (c : Conn) : List Char × Conn × Int :=
  match c.file with
  | none => ([], c, 1)
  | some rest =>
    let r := flushAux sched ⟨rest, c.chunk, c.chunk_sent, c.file_sent⟩
    (r.1, { c with file := some r.2.1.rest, chunk := r.2.1.chunk,
                   chunk_sent := r.2.1.csent, file_sent := r.2.1.fsent }, r.2.2)

/-- `write_client_response` from `server.c`: flush the header buffer first;
then, unless the request was HEAD, the in-memory error body if present,
else the streamed file. -/
def write_client_response (sched : List SendR) (c : Conn) : List Char × Conn × Int :=
  let h := send_buffer sched c.hdr_buf c.hdr_sent
  let c1 := { c with hdr_sent := h.2.1 }
  if h.2.2.1 ≤ 0 then (h.1, c1, h.2.2.1)
  else if c1.is_head then (h.1, c1, 1)
  else if 0 < c1.mem_body.length then
    let m := send_buffer h.2.2.2 c1.mem_body c1.mem_sent
    (h.1 ++ m.1, { c1 with mem_sent := m.2.1 }, m.2.2.1)
  else
    let f := flush_file h.2.2.2 c1
    (h.1 ++ f.1, f.2.1, f.2.2)

/-- The write-phase step of the event loop: run the write transition and
close the slot when it returns done (`> 0`) or error (`< 0`). -/
def handle_writable (sched : List SendR) (c : Conn) : Conn × Bool :=
  let w := write_client_response sched c
  (w.2.1, decide (w.2.2 < 0) || decide (0 < w.2.2))

/-- Repeated writability notifications against a destination that accepts
one byte per `send` call. -/
def drive : Nat → Conn → List Char × Conn × Int
  | 0, c => ([], c, 0)
  | n + 1, c =>
    let w := write_client_response [SendR.ok 1] c
    if w.2.2 = 0 then
      let r := drive n w.2.1
      (w.1 ++ r.1, r.2)
    else (w.1, w.2)

/-- Repeated writability notifications, one send schedule per notification. -/
def driveS : List (List SendR) → Conn → List Char × Conn × Int
  | [], c => ([], c, 0)
  | s :: ss, c =>
    let w := write_client_response s c
    if w.2.2 = 0 then
      let r := driveS ss w.2.1
      (w.1 ++ r.1, r.2)
    else (w.1, w.2)

/-- Total byte capacity of a send schedule: the sum of the amounts the
destination is willing to accept. -/
def capS : List SendR → Nat
  | [] => 0
  | SendR.ok n :: tl => n + capS tl
  | _ :: tl => capS tl

/-- Bytes of the streamed file not yet handed to the socket. -/
def pendingF (st : FileSt) : List Char :=
  st.chunk.drop st.csent ++ st.rest

/-- Bytes of a slot's streamed file not yet handed to the socket. -/
def filePending (c : Conn) : List Char :=
  match c.file with
  | none => []
  | some rest => c.chunk.drop c.chunk_sent ++ rest

/-! ### Specification-level notions used to state the claims -/

/-- Buffer counter sanity: no sent-offset exceeds its buffer's length. -/
def WF (c : Conn) : Prop :=
  c.hdr_sent ≤ c.hdr_buf.length ∧ c.mem_sent ≤ c.mem_body.length ∧
  c.chunk_sent ≤ c.chunk.length

instance (c : Conn) : Decidable (WF c) := by
  unfold WF; infer_instance

/-- Bytes of the response body not yet handed to the socket. -/
def bodyPending (c : Conn) : List Char :=
  if c.is_head then []
  else if 0 < c.mem_body.length then c.mem_body.drop c.mem_sent
  else
    match c.file with
    | none => []
    | some rest => c.chunk.drop c.chunk_sent ++ rest

/-- Bytes of the response not yet handed to the socket (headers first). -/
def pending (c : Conn) : List Char :=
  c.hdr_buf.drop c.hdr_sent ++ bodyPending c

/-- The complete body a freshly staged response will carry. -/
def respBody (c : Conn) : List Char :=
  if c.is_head then []
  else if 0 < c.mem_body.length then c.mem_body
  else
    match c.file with
    | none => []
    | some rest => rest

/-- The claim's notion "first line splits into whitespace-delimited
tokens", written from the specification text, independent of the
`sscanf` width limits of the implementation. -/
def wsTokensAux : List Char → List Char → List (List Char)
  | [], cur => if cur = [] then [] else [cur.reverse]
  | c :: t, cur =>
    if isSpaceC c then
      if cur = [] then wsTokensAux t [] else cur.reverse :: wsTokensAux t []
    else wsTokensAux t (c :: cur)

/-- Whitespace-delimited tokens of a line, as the specification words it. -/
def specWsTokens (l : List Char) : List (List Char) := wsTokensAux l []

/-- Specification step 4 of path resolution: a parent-directory segment at
path start, mid-path, or path end of a target that begins with `'/'`. -/
def specParentSegment (s : List Char) : Bool :=
  s == toL "/.." || hasSub (toL "/../") s || (toL "/..").isSuffixOf s

/-- The tested percent-encoded parent-directory variants. -/
def specPercentParent (s : List Char) : Bool :=
  hasSub (toL "%2e%2e") s || hasSub (toL "%2E%2E") s ||
  hasSub (toL "%2e.") s || hasSub (toL ".%2e") s || hasSub (toL "%2E.") s

/-! ### Concrete fixtures for witnesses -/

/-- A fixed header date of the length `strftime` always produces. -/
def dateW : String := "Thu, 01 Jan 1970 00:00:00 GMT"

/-- A tiny concrete filesystem: root `/srv` containing the regular file
`/srv/index.html` of 5 bytes, and a symlink `/srv/out.html` whose
canonical form `/etc/secret` lies outside the root. -/
def fsW : FS where
  realpath p :=
    if p = toL "/srv/index.html" then .ok (toL "/srv/index.html")
    else if p = toL "/srv/out.html" then .ok (toL "/etc/secret")
    else .error FSErr.noent
  stat p :=
    if p = toL "/srv/index.html" then .ok ⟨true, 5⟩
    else if p = toL "/etc/secret" then .ok ⟨true, 7⟩
    else .error FSErr.noent
  openFile p :=
    if p = toL "/srv/index.html" then .ok (toL "hello")
    else .error FSErr.noent

/-- A freshly staged memory-backed response used by write-phase witnesses. -/
def connMemW : Conn :=
  { mode := Mode.writing, req_buf := [], hdr_buf := toL "HD", hdr_sent := 0,
    mem_body := toL "BODY", mem_sent := 0, is_head := false, file := none,
    file_size := 0, file_sent := 0, chunk := [], chunk_sent := 0 }

/-- A freshly staged file-backed response used by write-phase witnesses. -/
def connFileW : Conn :=
  { mode := Mode.writing, req_buf := [], hdr_buf := toL "HD", hdr_sent := 0,
    mem_body := [], mem_sent := 0, is_head := false, file := some (toL "FILE"),
    file_size := 4, file_sent := 0, chunk := [], chunk_sent := 0 }

/-- A slot that has just parsed a HEAD request for `/index.html`. -/
def connHeadW : Conn :=
  { resetConn with req_buf := toL "HEAD /index.html HTTP/1.1\r\n\r\n" }

/-- A raw request whose first line carries a fourth, extra token. -/
def c7raw : List Char := toL "GET /a HTTP/1.1 extra\r\n\r\n"

/-! ## General lemmas: the resumable send primitive -/

theorem sb_done (sched : List SendR) (buf : List Char) (sent : Nat)
    (h : buf.length ≤ sent) : send_buffer sched buf sent = ([], sent, 1, sched) := by
  unfold send_buffer
  rw [if_pos h]

theorem sb_nil (buf : List Char) (sent : Nat) (h : ¬ buf.length ≤ sent) :
    send_buffer [] buf sent = ([], sent, 0, []) := by
  unfold send_buffer
  rw [if_neg h]

theorem sb_ok (n : Nat) (tl : List SendR) (buf : List Char) (sent : Nat)
    (h : ¬ buf.length ≤ sent) :
    send_buffer (SendR.ok n :: tl) buf sent =
      ((buf.drop sent).take (min n (buf.length - sent)) ++
        (send_buffer tl buf (sent + min n (buf.length - sent))).1,
       (send_buffer tl buf (sent + min n (buf.length - sent))).2) := by
  conv_lhs => unfold send_buffer
  rw [if_neg h]

theorem sb_block (tl : List SendR) (buf : List Char) (sent : Nat)
    (h : ¬ buf.length ≤ sent) :
    send_buffer (SendR.block :: tl) buf sent = ([], sent, 0, tl) := by
  unfold send_buffer
  rw [if_neg h]

theorem sb_fail (tl : List SendR) (buf : List Char) (sent : Nat)
    (h : ¬ buf.length ≤ sent) :
    send_buffer (SendR.fail :: tl) buf sent = ([], sent, -1, tl) := by
  unfold send_buffer
  rw [if_neg h]

theorem send_buffer_spec (sched : List SendR) : ∀ (buf : List Char) (sent : Nat)
    (d : List Char) (s' : Nat) (r : Int) (sch' : List SendR),
    sent ≤ buf.length → send_buffer sched buf sent = (d, s', r, sch') →
    sent ≤ s' ∧ s' ≤ buf.length ∧ d = (buf.drop sent).take (s' - sent) ∧
    (r = 1 ↔ s' = buf.length) ∧ s' ≤ sent + capS sched ∧
    capS sch' + (s' - sent) ≤ capS sched ∧
    (SendR.fail ∉ sched → r ≠ -1 ∧ SendR.fail ∉ sch') := by
  induction sched with
  | nil =>
    intro buf sent d s' r sch' h heq
    by_cases hb : buf.length ≤ sent
    · rw [sb_done _ _ _ hb] at heq
      simp only [Prod.mk.injEq] at heq
      obtain ⟨rfl, rfl, rfl, rfl⟩ := heq
      refine ⟨le_refl _, h, by simp, ⟨fun _ => le_antisymm h hb, fun _ => rfl⟩,
        Nat.le_add_right _ _, by omega, fun hf => ⟨by decide, hf⟩⟩
    · rw [sb_nil _ _ hb] at heq
      simp only [Prod.mk.injEq] at heq
      obtain ⟨rfl, rfl, rfl, rfl⟩ := heq
      refine ⟨le_refl _, h, by simp, ?_, Nat.le_add_right _ _, by simp [capS],
        fun hf => ⟨by decide, hf⟩⟩
      constructor <;> intro h' <;> omega
  | cons hd tl ih =>
    intro buf sent d s' r sch' h heq
    by_cases hb : buf.length ≤ sent
    · rw [sb_done _ _ _ hb] at heq
      simp only [Prod.mk.injEq] at heq
      obtain ⟨rfl, rfl, rfl, rfl⟩ := heq
      refine ⟨le_refl _, h, by simp, ⟨fun _ => le_antisymm h hb, fun _ => rfl⟩,
        Nat.le_add_right _ _, by omega, fun hf => ⟨by decide, hf⟩⟩
    · cases hd with
      | ok n =>
        have hacc : sent + min n (buf.length - sent) ≤ buf.length := by omega
        rw [sb_ok _ _ _ _ hb] at heq
        rcases hrec : send_buffer tl buf (sent + min n (buf.length - sent)) with
          ⟨d2, s2, r2, sch2⟩
        rw [hrec] at heq
        simp only [Prod.mk.injEq] at heq
        obtain ⟨rfl, rfl, rfl, rfl⟩ := heq
        obtain ⟨i1, i2, i3, i4, i5, i6, i7⟩ := ih buf _ _ _ _ _ hacc hrec
        refine ⟨by omega, i2, ?_, i4, ?_, ?_, ?_⟩
        · rw [i3]
          have hs : s2 - sent =
              min n (buf.length - sent) + (s2 - (sent + min n (buf.length - sent))) := by
            omega
          rw [hs, List.take_add, List.drop_drop]
        · simp only [capS]
          omega
        · simp only [capS]
          omega
        · intro hf
          simp only [List.mem_cons, not_or] at hf
          exact i7 hf.2
      | block =>
        rw [sb_block _ _ _ hb] at heq
        simp only [Prod.mk.injEq] at heq
        obtain ⟨rfl, rfl, rfl, rfl⟩ := heq
        refine ⟨le_refl _, h, by simp, ?_, Nat.le_add_right _ _, ?_, ?_⟩
        · constructor <;> intro h' <;> omega
        · simp only [capS]
          omega
        · intro hf
          simp only [List.mem_cons, not_or] at hf
          exact ⟨by decide, hf.2⟩
      | fail =>
        rw [sb_fail _ _ _ hb] at heq
        simp only [Prod.mk.injEq] at heq
        obtain ⟨rfl, rfl, rfl, rfl⟩ := heq
        refine ⟨le_refl _, h, by simp, ?_, Nat.le_add_right _ _, ?_, ?_⟩
        · constructor <;> intro h' <;> omega
        · simp only [capS]
          omega
        · intro hf
          simp only [List.mem_cons, not_or] at hf
          exact absurd trivial hf.1

theorem send_buffer_progress (n : Nat) (tl : List SendR) (buf : List Char) (sent : Nat)
    (hn : 0 < n) (h : sent < buf.length) :
    sent < (send_buffer (SendR.ok n :: tl) buf sent).2.1 := by
  have hb : ¬ buf.length ≤ sent := by omega
  have hacc : sent + min n (buf.length - sent) ≤ buf.length := by omega
  rcases hrec : send_buffer tl buf (sent + min n (buf.length - sent)) with ⟨d2, s2, r2, sch2⟩
  obtain ⟨i1, -⟩ := send_buffer_spec tl buf _ _ _ _ _ hacc hrec
  rw [sb_ok _ _ _ _ hb, hrec]
  show sent < s2
  omega

/-! ## General lemmas: file streaming -/

theorem fa_eof (sched : List SendR) (st : FileSt)
    (h : (st.chunk.length = 0 ∨ st.csent = st.chunk.length) ∧ st.rest = []) :
    flushAux sched st = ([], st, 1) := by
  cases sched with
  | nil =>
    unfold flushAux
    rw [if_pos h]
  | cons hd tl =>
    cases hd <;> (unfold flushAux; rw [if_pos h])

theorem fa_nil (st : FileSt)
    (h : ¬ ((st.chunk.length = 0 ∨ st.csent = st.chunk.length) ∧ st.rest = [])) :
    flushAux [] st = ([], loadChunk st, 0) := by
  unfold flushAux
  rw [if_neg h]

theorem fa_ok (n : Nat) (tl : List SendR) (st st1 : FileSt)
    (h : ¬ ((st.chunk.length = 0 ∨ st.csent = st.chunk.length) ∧ st.rest = []))
    (hl : loadChunk st = st1) :
    flushAux (SendR.ok n :: tl) st =
      ((st1.chunk.drop st1.csent).take (min n (st1.chunk.length - st1.csent)) ++
        (flushAux tl ⟨st1.rest, st1.chunk,
          st1.csent + min n (st1.chunk.length - st1.csent),
          st1.fsent + min n (st1.chunk.length - st1.csent)⟩).1,
       (flushAux tl ⟨st1.rest, st1.chunk,
          st1.csent + min n (st1.chunk.length - st1.csent),
          st1.fsent + min n (st1.chunk.length - st1.csent)⟩).2) := by
  subst hl
  conv_lhs => unfold flushAux
  rw [if_neg h]

theorem fa_block (tl : List SendR) (st : FileSt)
    (h : ¬ ((st.chunk.length = 0 ∨ st.csent = st.chunk.length) ∧ st.rest = [])) :
    flushAux (SendR.block :: tl) st = ([], loadChunk st, 0) := by
  unfold flushAux
  rw [if_neg h]

theorem fa_fail (tl : List SendR) (st : FileSt)
    (h : ¬ ((st.chunk.length = 0 ∨ st.csent = st.chunk.length) ∧ st.rest = [])) :
    flushAux (SendR.fail :: tl) st = ([], loadChunk st, -1) := by
  unfold flushAux
  rw [if_neg h]

theorem pendingF_nil_of_guard (st : FileSt)
    (h : (st.chunk.length = 0 ∨ st.csent = st.chunk.length) ∧ st.rest = []) :
    pendingF st = [] := by
  unfold pendingF
  rcases h.1 with hc | hc
  · rw [List.length_eq_zero] at hc
    rw [hc, List.drop_nil, h.2]
    rfl
  · rw [hc, List.drop_length, h.2]
    rfl

theorem loadChunk_pendingF (st : FileSt) : pendingF (loadChunk st) = pendingF st := by
  unfold loadChunk
  by_cases hc : st.chunk.length = 0 ∨ st.csent = st.chunk.length
  · rw [if_pos hc]
    have hnil : st.chunk.drop st.csent = [] := by
      rcases hc with hc | hc
      · rw [List.length_eq_zero] at hc
        rw [hc, List.drop_nil]
      · rw [hc, List.drop_length]
    simp [pendingF, hnil]
  · rw [if_neg hc]

theorem loadChunk_csent (st : FileSt) (hwf : st.csent ≤ st.chunk.length) :
    (loadChunk st).csent ≤ (loadChunk st).chunk.length := by
  unfold loadChunk
  by_cases hc : st.chunk.length = 0 ∨ st.csent = st.chunk.length
  · rw [if_pos hc]
    exact Nat.zero_le _
  · rw [if_neg hc]
    exact hwf

theorem loadChunk_progress (st : FileSt) (hwf : st.csent ≤ st.chunk.length)
    (h : ¬ ((st.chunk.length = 0 ∨ st.csent = st.chunk.length) ∧ st.rest = [])) :
    (loadChunk st).csent < (loadChunk st).chunk.length := by
  unfold loadChunk
  by_cases hc : st.chunk.length = 0 ∨ st.csent = st.chunk.length
  · rw [if_pos hc]
    have hr : st.rest ≠ [] := fun he => h ⟨hc, he⟩
    simp only []
    rw [List.length_take]
    have : 0 < st.rest.length := List.length_pos.mpr hr
    omega
  · rw [if_neg hc]
    omega

theorem loadChunk_pendingF_ne (st : FileSt) (hwf : st.csent ≤ st.chunk.length)
    (h : ¬ ((st.chunk.length = 0 ∨ st.csent = st.chunk.length) ∧ st.rest = [])) :
    pendingF (loadChunk st) ≠ [] := by
  have hp := loadChunk_progress st hwf h
  unfold pendingF
  intro hcon
  rcases List.append_eq_nil.mp hcon with ⟨h1, -⟩
  rw [List.drop_eq_nil_iff] at h1
  omega

theorem flushAux_spec (sched : List SendR) : ∀ (st : FileSt)
    (d : List Char) (st' : FileSt) (r : Int),
    st.csent ≤ st.chunk.length → flushAux sched st = (d, st', r) →
    st'.csent ≤ st'.chunk.length ∧
    pendingF st = d ++ pendingF st' ∧
    (r = 1 → pendingF st' = []) ∧
    (r = 0 → pendingF st' ≠ []) ∧
    (SendR.fail ∉ sched → r ≠ -1) ∧
    d.length ≤ capS sched := by
  induction sched with
  | nil =>
    intro st d st' r hwf heq
    by_cases hG : (st.chunk.length = 0 ∨ st.csent = st.chunk.length) ∧ st.rest = []
    · rw [fa_eof _ _ hG] at heq
      simp only [Prod.mk.injEq] at heq
      obtain ⟨rfl, rfl, rfl⟩ := heq
      have hnil := pendingF_nil_of_guard st hG
      exact ⟨hwf, by rw [hnil, List.append_nil], fun _ => hnil, fun h0 => by omega,
        fun _ => by decide, by simp [capS]⟩
    · rw [fa_nil _ hG] at heq
      simp only [Prod.mk.injEq] at heq
      obtain ⟨rfl, rfl, rfl⟩ := heq
      refine ⟨loadChunk_csent st hwf, by rw [loadChunk_pendingF, List.nil_append],
        fun h1 => by omega, fun _ => loadChunk_pendingF_ne st hwf hG,
        fun _ => by decide, by simp [capS]⟩
  | cons hd tl ih =>
    intro st d st' r hwf heq
    by_cases hG : (st.chunk.length = 0 ∨ st.csent = st.chunk.length) ∧ st.rest = []
    · rw [fa_eof _ _ hG] at heq
      simp only [Prod.mk.injEq] at heq
      obtain ⟨rfl, rfl, rfl⟩ := heq
      have hnil := pendingF_nil_of_guard st hG
      exact ⟨hwf, by rw [hnil, List.append_nil], fun _ => hnil, fun h0 => by omega,
        fun _ => by decide, by simp⟩
    · have hl1 : (loadChunk st).csent ≤ (loadChunk st).chunk.length :=
        loadChunk_csent st hwf
      cases hd with
      | ok n =>
        rw [fa_ok n tl st (loadChunk st) hG rfl] at heq
        rcases hrec : flushAux tl ⟨(loadChunk st).rest, (loadChunk st).chunk,
            (loadChunk st).csent + min n ((loadChunk st).chunk.length - (loadChunk st).csent),
            (loadChunk st).fsent + min n ((loadChunk st).chunk.length - (loadChunk st).csent)⟩
          with ⟨d2, st2, r2⟩
        rw [hrec] at heq
        simp only [Prod.mk.injEq] at heq
        obtain ⟨rfl, rfl, rfl⟩ := heq
        have hacc2 : (loadChunk st).csent +
            min n ((loadChunk st).chunk.length - (loadChunk st).csent) ≤
            (loadChunk st).chunk.length := by omega
        obtain ⟨i1, i2, i3, i4, i5, i6⟩ := ih _ _ _ _ hacc2 hrec
        refine ⟨i1, ?_, i3, i4, ?_, ?_⟩
        · rw [← loadChunk_pendingF st]
          unfold pendingF at i2 ⊢
          simp only [] at i2
          rw [List.append_assoc, ← i2]
          have hsplit : (loadChunk st).chunk.drop (loadChunk st).csent =
              ((loadChunk st).chunk.drop (loadChunk st).csent).take
                (min n ((loadChunk st).chunk.length - (loadChunk st).csent)) ++
              (loadChunk st).chunk.drop ((loadChunk st).csent +
                min n ((loadChunk st).chunk.length - (loadChunk st).csent)) := by
            conv_lhs => rw [← List.take_append_drop
              (min n ((loadChunk st).chunk.length - (loadChunk st).csent))
              ((loadChunk st).chunk.drop (loadChunk st).csent)]
            rw [List.drop_drop]
          rw [← List.append_assoc, ← hsplit]
        · intro hf
          simp only [List.mem_cons, not_or] at hf
          exact i5 hf.2
        · simp only [capS, List.length_append, List.length_take]
          omega
      | block =>
        rw [fa_block _ _ hG] at heq
        simp only [Prod.mk.injEq] at heq
        obtain ⟨rfl, rfl, rfl⟩ := heq
        refine ⟨hl1, by rw [loadChunk_pendingF, List.nil_append], fun h1 => by omega,
          fun _ => loadChunk_pendingF_ne st hwf hG, fun _ => by decide, ?_⟩
        simp only [capS, List.length_nil]
        omega
      | fail =>
        rw [fa_fail _ _ hG] at heq
        simp only [Prod.mk.injEq] at heq
        obtain ⟨rfl, rfl, rfl⟩ := heq
        refine ⟨hl1, by rw [loadChunk_pendingF, List.nil_append], fun h1 => by omega,
          fun h0 => by omega, fun hf => ?_, ?_⟩
        · simp only [List.mem_cons, not_or] at hf
          exact absurd trivial hf.1
        · simp only [capS, List.length_nil]
          omega

theorem flushAux_progress (n : Nat) (tl : List SendR) (st : FileSt)
    (hn : 0 < n) (hwf : st.csent ≤ st.chunk.length) (hne : pendingF st ≠ []) :
    (flushAux (SendR.ok n :: tl) st).1 ≠ [] := by
  have hG : ¬ ((st.chunk.length = 0 ∨ st.csent = st.chunk.length) ∧ st.rest = []) :=
    fun hG => hne (pendingF_nil_of_guard st hG)
  have hp : (loadChunk st).csent < (loadChunk st).chunk.length :=
    loadChunk_progress st hwf hG
  rw [fa_ok n tl st (loadChunk st) hG rfl]
  simp only []
  intro hcon
  rcases List.append_eq_nil.mp hcon with ⟨h1, -⟩
  rw [List.take_eq_nil_iff] at h1
  rcases h1 with h1 | h1
  · omega
  · rw [List.drop_eq_nil_iff] at h1
    omega

/-! ## General lemmas: the write transition -/

theorem drop_split (l : List Char) (a b : Nat) (h1 : a ≤ b) :
    l.drop a = (l.drop a).take (b - a) ++ l.drop b := by
  conv_lhs => rw [← List.take_append_drop (b - a) (l.drop a)]
  rw [List.drop_drop]
  congr 2
  omega

theorem send_buffer_code (sched : List SendR) : ∀ (buf : List Char) (sent : Nat),
    (send_buffer sched buf sent).2.2.1 = 1 ∨ (send_buffer sched buf sent).2.2.1 = 0 ∨
    (send_buffer sched buf sent).2.2.1 = -1 := by
  induction sched with
  | nil =>
    intro buf sent
    by_cases hb : buf.length ≤ sent
    · rw [sb_done _ _ _ hb]
      left
      rfl
    · rw [sb_nil _ _ hb]
      right
      left
      rfl
  | cons hd tl ih =>
    intro buf sent
    by_cases hb : buf.length ≤ sent
    · rw [sb_done _ _ _ hb]
      left
      rfl
    · cases hd with
      | ok n =>
        rw [sb_ok _ _ _ _ hb]
        exact ih buf (sent + min n (buf.length - sent))
      | block =>
        rw [sb_block _ _ _ hb]
        right
        left
        rfl
      | fail =>
        rw [sb_fail _ _ _ hb]
        right
        right
        rfl

theorem bodyPending_head (c : Conn) (h : c.is_head = true) : bodyPending c = [] := by
  unfold bodyPending
  rw [h]
  rfl

theorem bodyPending_mem (c : Conn) (h1 : c.is_head = false) (h2 : 0 < c.mem_body.length) :
    bodyPending c = c.mem_body.drop c.mem_sent := by
  unfold bodyPending
  rw [h1, if_neg (by simp), if_pos h2]

theorem bodyPending_file (c : Conn) (h1 : c.is_head = false)
    (h2 : ¬ 0 < c.mem_body.length) : bodyPending c = filePending c := by
  unfold bodyPending filePending
  rw [h1, if_neg (by simp), if_neg h2]

theorem flush_file_spec (sched : List SendR) (c : Conn)
    (hwf : c.chunk_sent ≤ c.chunk.length) :
    ∀ d c' r, flush_file sched c = (d, c', r) →
    c'.chunk_sent ≤ c'.chunk.length ∧
    filePending c = d ++ filePending c' ∧
    (r = 1 → filePending c' = []) ∧
    (r = 0 → filePending c' ≠ []) ∧
    (SendR.fail ∉ sched → r ≠ -1) ∧
    d.length ≤ capS sched ∧
    c'.hdr_buf = c.hdr_buf ∧ c'.hdr_sent = c.hdr_sent ∧ c'.mem_body = c.mem_body ∧
    c'.mem_sent = c.mem_sent ∧ c'.is_head = c.is_head ∧ c'.req_buf = c.req_buf ∧
    c'.mode = c.mode := by
  intro d c' r heq
  unfold flush_file at heq
  rcases hf : c.file with - | rest
  · rw [hf] at heq
    simp only [Prod.mk.injEq] at heq
    obtain ⟨rfl, rfl, rfl⟩ := heq
    have hfp : filePending c = [] := by simp [filePending, hf]
    exact ⟨hwf, by simp [hfp], fun _ => hfp, fun h0 => by omega, fun _ => by decide,
      by simp, rfl, rfl, rfl, rfl, rfl, rfl, rfl⟩
  · rw [hf] at heq
    dsimp only [] at heq
    rcases hfa : flushAux sched ⟨rest, c.chunk, c.chunk_sent, c.file_sent⟩ with ⟨d2, st2, r2⟩
    rw [hfa] at heq
    simp only [Prod.mk.injEq] at heq
    obtain ⟨rfl, rfl, rfl⟩ := heq
    obtain ⟨i1, i2, i3, i4, i5, i6⟩ := flushAux_spec sched _ _ _ _ hwf hfa
    have hpc : filePending c = pendingF ⟨rest, c.chunk, c.chunk_sent, c.file_sent⟩ := by
      simp [filePending, hf, pendingF]
    have hpc' : filePending
        { c with file := some st2.rest, chunk := st2.chunk,
                 chunk_sent := st2.csent, file_sent := st2.fsent } = pendingF st2 := by
      simp [filePending, pendingF]
    exact ⟨i1, by rw [hpc, hpc', i2], fun h1 => by rw [hpc']; exact i3 h1,
      fun h0 => by rw [hpc']; exact i4 h0, i5, i6, rfl, rfl, rfl, rfl, rfl, rfl, rfl⟩

theorem take_drop_all (l : List Char) (a : Nat) :
    (l.drop a).take (l.length - a) = l.drop a := by
  rw [← List.length_drop]
  exact List.take_length _

theorem bodyPending_hdr_update (c : Conn) (x : Nat) :
    bodyPending { c with hdr_sent := x } = bodyPending c := rfl

theorem filePending_hdr_update (c : Conn) (x : Nat) :
    filePending { c with hdr_sent := x } = filePending c := rfl

theorem write_spec (sched : List SendR) (c : Conn) (hwf : WF c) :
    ∀ d c' r, write_client_response sched c = (d, c', r) →
    WF c' ∧ pending c = d ++ pending c' ∧
    (r = 1 → pending c' = []) ∧ (r = 0 → pending c' ≠ []) ∧
    (SendR.fail ∉ sched → r ≠ -1) ∧
    c'.hdr_buf = c.hdr_buf ∧ c'.mem_body = c.mem_body ∧ c'.is_head = c.is_head ∧
    c'.req_buf = c.req_buf ∧ c.hdr_sent ≤ c'.hdr_sent ∧
    (∃ db, d = (c.hdr_buf.drop c.hdr_sent).take (c'.hdr_sent - c.hdr_sent) ++ db ∧
       (db ≠ [] → c'.hdr_sent = c.hdr_buf.length)) ∧
    d.length ≤ capS sched := by
  intro d c' r heq
  unfold write_client_response at heq
  rcases hh : send_buffer sched c.hdr_buf c.hdr_sent with ⟨d1, hs, r1, sched1⟩
  rw [hh] at heq
  dsimp only [] at heq
  obtain ⟨s1, s2, s3, s4, s5, s6, s7⟩ :=
    send_buffer_spec sched c.hdr_buf c.hdr_sent d1 hs r1 sched1 hwf.1 hh
  have hd1len : d1.length ≤ hs - c.hdr_sent := by
    rw [s3, List.length_take]
    omega
  by_cases hr1 : r1 ≤ 0
  · rw [if_pos hr1] at heq
    simp only [Prod.mk.injEq] at heq
    obtain ⟨rfl, rfl, rfl⟩ := heq
    refine ⟨⟨s2, hwf.2.1, hwf.2.2⟩, ?_, ?_, ?_, fun hf => (s7 hf).1, rfl, rfl, rfl, rfl, s1,
      ⟨[], by rw [List.append_nil]; exact s3, fun hne => absurd rfl hne⟩, by omega⟩
    · show c.hdr_buf.drop c.hdr_sent ++ bodyPending c =
        d1 ++ (c.hdr_buf.drop hs ++ bodyPending { c with hdr_sent := hs })
      rw [s3, ← List.append_assoc, ← drop_split c.hdr_buf c.hdr_sent hs s1]
      rfl
    · intro h1
      exfalso
      omega
    · intro h0
      have hne : hs ≠ c.hdr_buf.length := fun he => by have := s4.mpr he; omega
      show c.hdr_buf.drop hs ++ bodyPending { c with hdr_sent := hs } ≠ []
      intro hcon
      rcases List.append_eq_nil.mp hcon with ⟨h1, -⟩
      rw [List.drop_eq_nil_iff] at h1
      omega
  · have hr11 : r1 = 1 := by
      have hc := send_buffer_code sched c.hdr_buf c.hdr_sent
      rw [hh] at hc
      dsimp only [] at hc
      rcases hc with h | h | h
      · exact h
      · exfalso; omega
      · exfalso; omega
    have hlen : hs = c.hdr_buf.length := s4.mp hr11
    have hd1 : d1 = c.hdr_buf.drop c.hdr_sent := by
      rw [s3, hlen]
      exact take_drop_all c.hdr_buf c.hdr_sent
    rw [if_neg hr1] at heq
    by_cases hih : c.is_head = true
    · rw [if_pos (show ({ c with hdr_sent := hs } : Conn).is_head = true from hih)] at heq
      simp only [Prod.mk.injEq] at heq
      obtain ⟨rfl, rfl, rfl⟩ := heq
      have hbp' : pending { c with hdr_sent := hs } = [] := by
        show c.hdr_buf.drop hs ++ bodyPending { c with hdr_sent := hs } = []
        rw [bodyPending_hdr_update, bodyPending_head c hih, hlen, List.drop_length]
        rfl
      refine ⟨⟨by rw [hlen], hwf.2.1, hwf.2.2⟩, ?_, fun _ => hbp', fun h0 => by omega,
        fun _ => by decide, rfl, rfl, rfl, rfl, s1,
        ⟨[], by rw [List.append_nil]; exact s3, fun hne => absurd rfl hne⟩, by omega⟩
      show c.hdr_buf.drop c.hdr_sent ++ bodyPending c = d1 ++ pending { c with hdr_sent := hs }
      rw [hbp', List.append_nil, hd1, bodyPending_head c hih, List.append_nil]
    · rw [if_neg (show ¬ ({ c with hdr_sent := hs } : Conn).is_head = true from hih)] at heq
      have hihf : c.is_head = false := by
        cases hx : c.is_head
        · rfl
        · exact absurd hx hih
      by_cases hmem : 0 < c.mem_body.length
      · rw [if_pos (show 0 < ({ c with hdr_sent := hs } : Conn).mem_body.length from hmem)]
          at heq
        rcases hm : send_buffer sched1 c.mem_body c.mem_sent with ⟨d2, ms, r2, sched2⟩
        rw [show send_buffer sched1 ({ c with hdr_sent := hs } : Conn).mem_body
            ({ c with hdr_sent := hs } : Conn).mem_sent = (d2, ms, r2, sched2) from hm] at heq
        dsimp only [] at heq
        simp only [Prod.mk.injEq] at heq
        obtain ⟨rfl, rfl, rfl⟩ := heq
        obtain ⟨m1, m2, m3, m4, m5, m6, m7⟩ :=
          send_buffer_spec sched1 c.mem_body c.mem_sent d2 ms r2 sched2 hwf.2.1 hm
        have hd2len : d2.length ≤ ms - c.mem_sent := by
          rw [m3, List.length_take]
          omega
        have hbc : bodyPending c = c.mem_body.drop c.mem_sent := bodyPending_mem c hihf hmem
        have hbc' : bodyPending { c with hdr_sent := hs, mem_sent := ms } =
            c.mem_body.drop ms := by
          show bodyPending { c with hdr_sent := hs, mem_sent := ms } = _
          unfold bodyPending
          rw [show ({ c with hdr_sent := hs, mem_sent := ms } : Conn).is_head = false
            from hihf]
          rw [if_neg (by simp), if_pos hmem]
        refine ⟨⟨by rw [hlen], m2, hwf.2.2⟩, ?_, ?_, ?_, ?_, rfl, rfl, rfl, rfl, s1,
          ⟨d2, by rw [← s3], fun _ => hlen⟩, ?_⟩
        · show c.hdr_buf.drop c.hdr_sent ++ bodyPending c = (d1 ++ d2) ++
            (c.hdr_buf.drop hs ++ bodyPending { c with hdr_sent := hs, mem_sent := ms })
          rw [hbc, hbc', hlen, List.drop_length, List.nil_append, hd1,
            drop_split c.mem_body c.mem_sent ms m1, ← m3, List.append_assoc]
        · intro h1
          have hms : ms = c.mem_body.length := m4.mp h1
          show c.hdr_buf.drop hs ++ bodyPending { c with hdr_sent := hs, mem_sent := ms } = []
          rw [hbc', hlen, List.drop_length, List.nil_append, hms, List.drop_length]
        · intro h0
          have hne : ms ≠ c.mem_body.length := fun he => by have := m4.mpr he; omega
          show c.hdr_buf.drop hs ++ bodyPending { c with hdr_sent := hs, mem_sent := ms } ≠ []
          rw [hbc']
          intro hcon
          rcases List.append_eq_nil.mp hcon with ⟨-, h1⟩
          rw [List.drop_eq_nil_iff] at h1
          omega
        · intro hf
          exact (m7 (s7 hf).2).1
        · rw [List.length_append]
          omega
      · rw [if_neg (show ¬ 0 < ({ c with hdr_sent := hs } : Conn).mem_body.length from hmem)]
          at heq
        rcases hfl : flush_file sched1 { c with hdr_sent := hs } with ⟨d2, c2, r2⟩
        rw [hfl] at heq
        dsimp only [] at heq
        simp only [Prod.mk.injEq] at heq
        obtain ⟨rfl, rfl, rfl⟩ := heq
        obtain ⟨f1, f2, f3, f4, f5, f6, f7, f8, f9, f10, f11, f12, f13⟩ :=
          flush_file_spec sched1 { c with hdr_sent := hs } hwf.2.2 d2 c2 r2 hfl
        dsimp only [] at f7 f8 f9 f10 f11 f12 f13
        have hfp : filePending { c with hdr_sent := hs } = filePending c :=
          filePending_hdr_update c hs
        have hbc : bodyPending c = filePending c := bodyPending_file c hihf hmem
        have hbc2 : bodyPending c2 = filePending c2 := by
          apply bodyPending_file
          · rw [f11]
            exact hihf
          · rw [f9]
            exact hmem
        have hpend2 : pending c2 = filePending c2 := by
          unfold pending
          rw [hbc2, f7, f8]
          show c.hdr_buf.drop hs ++ filePending c2 = filePending c2
          rw [hlen, List.drop_length, List.nil_append]
        refine ⟨⟨by rw [f8, f7]; show hs ≤ c.hdr_buf.length; omega,
          by rw [f10, f9]; exact hwf.2.1, f1⟩, ?_, ?_, ?_, ?_, f7, f9, f11, f12,
          by rw [f8]; show c.hdr_sent ≤ hs; omega,
          ⟨d2, by rw [f8, ← s3], fun _ => by rw [f8]; exact hlen⟩, ?_⟩
        · show c.hdr_buf.drop c.hdr_sent ++ bodyPending c = (d1 ++ d2) ++ pending c2
          rw [hbc, hpend2, hd1, ← hfp, f2, List.append_assoc]
        · intro h1
          rw [hpend2]
          exact f3 h1
        · intro h0
          rw [hpend2]
          exact f4 h0
        · intro hf
          exact f5 (s7 hf).2
        · rw [List.length_append]
          omega

theorem flushAux_code (sched : List SendR) : ∀ st : FileSt,
    (flushAux sched st).2.2 = 1 ∨ (flushAux sched st).2.2 = 0 ∨
    (flushAux sched st).2.2 = -1 := by
  induction sched with
  | nil =>
    intro st
    by_cases hG : (st.chunk.length = 0 ∨ st.csent = st.chunk.length) ∧ st.rest = []
    · rw [fa_eof _ _ hG]
      left
      rfl
    · rw [fa_nil _ hG]
      right
      left
      rfl
  | cons hd tl ih =>
    intro st
    by_cases hG : (st.chunk.length = 0 ∨ st.csent = st.chunk.length) ∧ st.rest = []
    · rw [fa_eof _ _ hG]
      left
      rfl
    · cases hd with
      | ok n =>
        rw [fa_ok n tl st (loadChunk st) hG rfl]
        exact ih _
      | block =>
        rw [fa_block _ _ hG]
        right
        left
        rfl
      | fail =>
        rw [fa_fail _ _ hG]
        right
        right
        rfl

theorem flush_file_code (sched : List SendR) (c : Conn) :
    ∀ d c' r, flush_file sched c = (d, c', r) → r = 1 ∨ r = 0 ∨ r = -1 := by
  intro d c' r heq
  unfold flush_file at heq
  rcases hf : c.file with - | rest
  · rw [hf] at heq
    simp only [Prod.mk.injEq] at heq
    obtain ⟨-, -, rfl⟩ := heq
    left
    rfl
  · rw [hf] at heq
    dsimp only [] at heq
    rcases hfa : flushAux sched ⟨rest, c.chunk, c.chunk_sent, c.file_sent⟩ with ⟨d2, st2, r2⟩
    rw [hfa] at heq
    simp only [Prod.mk.injEq] at heq
    obtain ⟨-, -, rfl⟩ := heq
    have hc := flushAux_code sched ⟨rest, c.chunk, c.chunk_sent, c.file_sent⟩
    rw [hfa] at hc
    exact hc

theorem write_code (sched : List SendR) (c : Conn) :
    ∀ d c' r, write_client_response sched c = (d, c', r) → r = 1 ∨ r = 0 ∨ r = -1 := by
  intro d c' r heq
  unfold write_client_response at heq
  rcases hh : send_buffer sched c.hdr_buf c.hdr_sent with ⟨d1, hs, r1, sched1⟩
  rw [hh] at heq
  dsimp only [] at heq
  have hc1 := send_buffer_code sched c.hdr_buf c.hdr_sent
  rw [hh] at hc1
  by_cases hr1 : r1 ≤ 0
  · rw [if_pos hr1] at heq
    simp only [Prod.mk.injEq] at heq
    obtain ⟨-, -, rfl⟩ := heq
    exact hc1
  · rw [if_neg hr1] at heq
    by_cases hih : c.is_head = true
    · rw [if_pos (show ({ c with hdr_sent := hs } : Conn).is_head = true from hih)] at heq
      simp only [Prod.mk.injEq] at heq
      obtain ⟨-, -, rfl⟩ := heq
      left
      rfl
    · rw [if_neg (show ¬ ({ c with hdr_sent := hs } : Conn).is_head = true from hih)] at heq
      by_cases hmem : 0 < c.mem_body.length
      · rw [if_pos (show 0 < ({ c with hdr_sent := hs } : Conn).mem_body.length from hmem)]
          at heq
        rcases hm : send_buffer sched1 c.mem_body c.mem_sent with ⟨d2, ms, r2, sched2⟩
        rw [show send_buffer sched1 ({ c with hdr_sent := hs } : Conn).mem_body
          ({ c with hdr_sent := hs } : Conn).mem_sent = (d2, ms, r2, sched2) from hm] at heq
        dsimp only [] at heq
        simp only [Prod.mk.injEq] at heq
        obtain ⟨-, -, rfl⟩ := heq
        have hc2 := send_buffer_code sched1 c.mem_body c.mem_sent
        rw [hm] at hc2
        exact hc2
      · rw [if_neg (show ¬ 0 < ({ c with hdr_sent := hs } : Conn).mem_body.length from hmem)]
          at heq
        rcases hfl : flush_file sched1 { c with hdr_sent := hs } with ⟨d2, c2, r2⟩
        rw [hfl] at heq
        dsimp only [] at heq
        simp only [Prod.mk.injEq] at heq
        obtain ⟨-, -, rfl⟩ := heq
        exact flush_file_code sched1 _ d2 c2 r2 hfl

theorem flush_file_progress (n : Nat) (tl : List SendR) (c : Conn) (hn : 0 < n)
    (hwf : c.chunk_sent ≤ c.chunk.length) (hne : filePending c ≠ []) :
    ∀ d c' r, flush_file (SendR.ok n :: tl) c = (d, c', r) → d ≠ [] := by
  intro d c' r heq
  unfold flush_file at heq
  rcases hf : c.file with - | rest
  · exfalso
    apply hne
    simp [filePending, hf]
  · rw [hf] at heq
    dsimp only [] at heq
    rcases hfa : flushAux (SendR.ok n :: tl) ⟨rest, c.chunk, c.chunk_sent, c.file_sent⟩
      with ⟨d2, st2, r2⟩
    rw [hfa] at heq
    simp only [Prod.mk.injEq] at heq
    obtain ⟨rfl, -, -⟩ := heq
    have hpf : filePending c = pendingF ⟨rest, c.chunk, c.chunk_sent, c.file_sent⟩ := by
      simp [filePending, hf, pendingF]
    have hprog := flushAux_progress n tl ⟨rest, c.chunk, c.chunk_sent, c.file_sent⟩ hn hwf
      (by rw [← hpf]; exact hne)
    rw [hfa] at hprog
    exact hprog

theorem write_progress (n : Nat) (tl : List SendR) (c : Conn) (hwf : WF c) (hn : 0 < n) :
    ∀ d c' r, write_client_response (SendR.ok n :: tl) c = (d, c', r) →
    pending c ≠ [] → d ≠ [] := by
  intro d c' r heq hne
  unfold write_client_response at heq
  rcases hh : send_buffer (SendR.ok n :: tl) c.hdr_buf c.hdr_sent with ⟨d1, hs, r1, sched1⟩
  rw [hh] at heq
  dsimp only [] at heq
  by_cases hsl : c.hdr_sent < c.hdr_buf.length
  · -- the header send makes progress, so at least one byte is delivered
    obtain ⟨s1, s2, s3, s4, s5, s6, s7⟩ :=
      send_buffer_spec _ c.hdr_buf c.hdr_sent d1 hs r1 sched1 hwf.1 hh
    have hp : c.hdr_sent < hs := by
      have hq := send_buffer_progress n tl c.hdr_buf c.hdr_sent hn hsl
      rw [hh] at hq
      exact hq
    have hd1 : d1 ≠ [] := by
      rw [s3]
      intro hcon
      rw [List.take_eq_nil_iff] at hcon
      rcases hcon with h1 | h1
      · omega
      · rw [List.drop_eq_nil_iff] at h1
        omega
    by_cases hr1 : r1 ≤ 0
    · rw [if_pos hr1] at heq
      simp only [Prod.mk.injEq] at heq
      obtain ⟨rfl, -, -⟩ := heq
      exact hd1
    · rw [if_neg hr1] at heq
      by_cases hih : c.is_head = true
      · rw [if_pos (show ({ c with hdr_sent := hs } : Conn).is_head = true from hih)] at heq
        simp only [Prod.mk.injEq] at heq
        obtain ⟨rfl, -, -⟩ := heq
        exact hd1
      · rw [if_neg (show ¬ ({ c with hdr_sent := hs } : Conn).is_head = true from hih)] at heq
        by_cases hmem : 0 < c.mem_body.length
        · rw [if_pos (show 0 < ({ c with hdr_sent := hs } : Conn).mem_body.length from hmem)]
            at heq
          rcases hm : send_buffer sched1 c.mem_body c.mem_sent with ⟨d2, ms, r2, sched2⟩
          rw [show send_buffer sched1 ({ c with hdr_sent := hs } : Conn).mem_body
            ({ c with hdr_sent := hs } : Conn).mem_sent = (d2, ms, r2, sched2) from hm] at heq
          dsimp only [] at heq
          simp only [Prod.mk.injEq] at heq
          obtain ⟨rfl, -, -⟩ := heq
          exact fun hcon => hd1 (List.append_eq_nil.mp hcon).1
        · rw [if_neg
            (show ¬ 0 < ({ c with hdr_sent := hs } : Conn).mem_body.length from hmem)] at heq
          rcases hfl : flush_file sched1 { c with hdr_sent := hs } with ⟨d2, c2, r2⟩
          rw [hfl] at heq
          dsimp only [] at heq
          simp only [Prod.mk.injEq] at heq
          obtain ⟨rfl, -, -⟩ := heq
          exact fun hcon => hd1 (List.append_eq_nil.mp hcon).1
  · -- the header is already flushed; progress comes from the body
    have hsez : c.hdr_buf.length ≤ c.hdr_sent := by omega
    have hdone := sb_done (SendR.ok n :: tl) c.hdr_buf c.hdr_sent hsez
    rw [hdone] at hh
    simp only [Prod.mk.injEq] at hh
    obtain ⟨hd1e, hhs, hr1e, hsch⟩ := hh
    subst hd1e
    subst hhs
    subst hr1e
    subst hsch
    rw [if_neg (by omega : ¬ (1 : Int) ≤ 0)] at heq
    have hdrnil : c.hdr_buf.drop c.hdr_sent = [] := by
      rw [List.drop_eq_nil_iff]
      omega
    have hbne : bodyPending c ≠ [] := by
      intro hcon
      apply hne
      unfold pending
      rw [hdrnil, hcon]
      rfl
    by_cases hih : c.is_head = true
    · exfalso
      exact hbne (bodyPending_head c hih)
    · rw [if_neg
        (show ¬ ({ c with hdr_sent := c.hdr_sent } : Conn).is_head = true from hih)] at heq
      have hihf : c.is_head = false := by
        cases hx : c.is_head
        · rfl
        · exact absurd hx hih
      by_cases hmem : 0 < c.mem_body.length
      · rw [if_pos
          (show 0 < ({ c with hdr_sent := c.hdr_sent } : Conn).mem_body.length from hmem)]
          at heq
        have hmslt : c.mem_sent < c.mem_body.length := by
          have hb := bodyPending_mem c hihf hmem
          by_contra hc
          apply hbne
          rw [hb, List.drop_eq_nil_iff]
          omega
        rcases hm : send_buffer (SendR.ok n :: tl) c.mem_body c.mem_sent
          with ⟨d2, ms, r2, sched2⟩
        obtain ⟨m1, m2, m3, m4, m5, m6, m7⟩ :=
          send_buffer_spec _ c.mem_body c.mem_sent d2 ms r2 sched2 hwf.2.1 hm
        have hp : c.mem_sent < ms := by
          have hq := send_buffer_progress n tl c.mem_body c.mem_sent hn hmslt
          rw [hm] at hq
          exact hq
        rw [show send_buffer (SendR.ok n :: tl)
          ({ c with hdr_sent := c.hdr_sent } : Conn).mem_body
          ({ c with hdr_sent := c.hdr_sent } : Conn).mem_sent = (d2, ms, r2, sched2) from hm]
          at heq
        dsimp only [] at heq
        simp only [Prod.mk.injEq] at heq
        obtain ⟨rfl, -, -⟩ := heq
        intro hcon
        rcases List.append_eq_nil.mp hcon with ⟨-, h2⟩
        rw [m3, List.take_eq_nil_iff] at h2
        rcases h2 with h2 | h2
        · omega
        · rw [List.drop_eq_nil_iff] at h2
          omega
      · rw [if_neg
          (show ¬ 0 < ({ c with hdr_sent := c.hdr_sent } : Conn).mem_body.length from hmem)]
          at heq
        have hfpne : filePending { c with hdr_sent := c.hdr_sent } ≠ [] := by
          rw [filePending_hdr_update]
          rw [bodyPending_file c hihf hmem] at hbne
          exact hbne
        rcases hfl : flush_file (SendR.ok n :: tl) { c with hdr_sent := c.hdr_sent }
          with ⟨d2, c2, r2⟩
        rw [hfl] at heq
        dsimp only [] at heq
        simp only [Prod.mk.injEq] at heq
        obtain ⟨rfl, -, -⟩ := heq
        have hd2 := flush_file_progress n tl { c with hdr_sent := c.hdr_sent } hn
          hwf.2.2 hfpne d2 c2 r2 hfl
        exact fun hcon => hd2 (List.append_eq_nil.mp hcon).2

theorem driveS_spec (ss : List (List SendR)) : ∀ c : Conn, WF c →
    ∀ D c' r, driveS ss c = (D, c', r) →
    WF c' ∧ pending c = D ++ pending c' ∧ (r = 1 → pending c' = []) := by
  induction ss with
  | nil =>
    intro c hwf D c' r heq
    unfold driveS at heq
    simp only [Prod.mk.injEq] at heq
    obtain ⟨rfl, rfl, rfl⟩ := heq
    exact ⟨hwf, by simp, fun h1 => by omega⟩
  | cons s ss ih =>
    intro c hwf D c' r heq
    unfold driveS at heq
    rcases hw : write_client_response s c with ⟨d1, c1, r1⟩
    rw [hw] at heq
    dsimp only [] at heq
    obtain ⟨w1, w2, w3, -⟩ := write_spec s c hwf d1 c1 r1 hw
    by_cases hr : r1 = 0
    · rw [if_pos hr] at heq
      rcases hd : driveS ss c1 with ⟨D2, c2, r2⟩
      rw [hd] at heq
      dsimp only [] at heq
      simp only [Prod.mk.injEq] at heq
      obtain ⟨rfl, rfl, rfl⟩ := heq
      obtain ⟨i1, i2, i3⟩ := ih c1 w1 D2 c2 r2 hd
      exact ⟨i1, by rw [w2, i2, List.append_assoc], i3⟩
    · rw [if_neg hr] at heq
      simp only [Prod.mk.injEq] at heq
      obtain ⟨rfl, rfl, rfl⟩ := heq
      exact ⟨w1, w2, w3⟩

theorem drive_exact : ∀ (k : Nat) (c : Conn), WF c → (pending c).length ≤ k →
    ∀ D c' r, drive (k + 1) c = (D, c', r) → D = pending c ∧ r = 1 ∧ WF c' := by
  intro k
  induction k with
  | zero =>
    intro c hwf hlen D c' r heq
    have hpe : pending c = [] := List.length_eq_zero.mp (by omega)
    unfold drive at heq
    rcases hw : write_client_response [SendR.ok 1] c with ⟨d1, c1, r1⟩
    rw [hw] at heq
    dsimp only [] at heq
    obtain ⟨w1, w2, w3, w4, w5, -⟩ := write_spec _ c hwf d1 c1 r1 hw
    have hd1 : d1 = [] ∧ pending c1 = [] := by
      rw [hpe] at w2
      exact ⟨(List.append_eq_nil.mp w2.symm).1, (List.append_eq_nil.mp w2.symm).2⟩
    have hr1 : r1 = 1 := by
      rcases write_code _ c d1 c1 r1 hw with h | h | h
      · exact h
      · exact absurd hd1.2 (w4 h)
      · exact absurd h (w5 (by decide))
    rw [if_neg (by omega : ¬ r1 = 0)] at heq
    simp only [Prod.mk.injEq] at heq
    obtain ⟨rfl, rfl, rfl⟩ := heq
    exact ⟨by rw [hd1.1, hpe], hr1, w1⟩
  | succ k ih =>
    intro c hwf hlen D c' r heq
    unfold drive at heq
    rcases hw : write_client_response [SendR.ok 1] c with ⟨d1, c1, r1⟩
    rw [hw] at heq
    dsimp only [] at heq
    obtain ⟨w1, w2, w3, w4, w5, -, -, -, -, -, -, w12⟩ := write_spec _ c hwf d1 c1 r1 hw
    have hd1len : d1.length ≤ 1 := by
      have hcap : capS [SendR.ok 1] = 1 := rfl
      omega
    rcases hpc : pending c with - | ⟨b, rest⟩
    · -- nothing pending: the write transition reports completion at once
      have hd1 : d1 = [] ∧ pending c1 = [] := by
        rw [hpc] at w2
        exact ⟨(List.append_eq_nil.mp w2.symm).1, (List.append_eq_nil.mp w2.symm).2⟩
      have hr1 : r1 = 1 := by
        rcases write_code _ c d1 c1 r1 hw with h | h | h
        · exact h
        · exact absurd hd1.2 (w4 h)
        · exact absurd h (w5 (by decide))
      rw [if_neg (by omega : ¬ r1 = 0)] at heq
      simp only [Prod.mk.injEq] at heq
      obtain ⟨rfl, rfl, rfl⟩ := heq
      exact ⟨hd1.1, hr1, w1⟩
    · have hne : pending c ≠ [] := by rw [hpc]; exact List.cons_ne_nil _ _
      have hd1ne : d1 ≠ [] := write_progress 1 [] c hwf (by decide) d1 c1 r1 hw hne
      obtain ⟨x, hx⟩ : ∃ x, d1 = [x] := by
        rcases d1 with - | ⟨x, xs⟩
        · exact absurd rfl hd1ne
        · rcases xs with - | ⟨y, ys⟩
          · exact ⟨x, rfl⟩
          · simp at hd1len
      have hsplit : x = b ∧ pending c1 = rest := by
        rw [hpc, hx] at w2
        simp only [List.cons_append, List.nil_append, List.cons.injEq] at w2
        exact ⟨w2.1.symm, w2.2.symm⟩
      by_cases hr : r1 = 0
      · rw [if_pos hr] at heq
        rcases hdr : drive (k + 1) c1 with ⟨D2, c2, r2⟩
        rw [hdr] at heq
        dsimp only [] at heq
        simp only [Prod.mk.injEq] at heq
        obtain ⟨rfl, rfl, rfl⟩ := heq
        have hlen1 : (pending c1).length ≤ k := by
          rw [hsplit.2]
          have : (pending c).length = rest.length + 1 := by rw [hpc]; simp
          omega
        obtain ⟨i1, i2, i3⟩ := ih c1 w1 hlen1 D2 c2 r2 hdr
        refine ⟨?_, i2, i3⟩
        rw [i1, hsplit.2, hx, hsplit.1]
        rfl
      · rw [if_neg hr] at heq
        simp only [Prod.mk.injEq] at heq
        obtain ⟨rfl, rfl, rfl⟩ := heq
        have hr1 : r1 = 1 := by
          rcases write_code _ c d1 c1 r1 hw with h | h | h
          · exact h
          · exact absurd h hr
          · exact absurd h (w5 (by decide))
        have hrest : rest = [] := by
          rw [← hsplit.2]
          exact w3 hr1
        refine ⟨?_, hr1, w1⟩
        rw [hx, hsplit.1, hrest]

/-! ## Claim C2 -/

/-- Claim C2: for every connection in Writing mode (freshly staged: all
sent-offsets zero) and every sequence of partial sends, the write
transition transmits the header buffer completely before any body byte,
and the concatenation of all bytes delivered equals the complete
header-then-body stream with no byte lost or duplicated; a destination
accepting one byte per send call still delivers the whole stream; each
buffer's sent-offset advances by exactly the number of bytes the send
accepted, and a would-block result defers without modifying state. -/
theorem write_response_stream_exact (c : Conn) (h0 : c.hdr_sent = 0) (h1 : c.mem_sent = 0)
    (h2 : c.chunk = []) (h3 : c.chunk_sent = 0) :
    (∀ ss D c' r, driveS ss c = (D, c', r) → r = 1 → D = c.hdr_buf ++ respBody c) ∧
    (∀ D c' r, drive ((c.hdr_buf ++ respBody c).length + 1) c = (D, c', r) →
        D = c.hdr_buf ++ respBody c ∧ r = 1) ∧
    (∀ sched d c' r, write_client_response sched c = (d, c', r) →
        ∃ db, d = c.hdr_buf.take c'.hdr_sent ++ db ∧
          (db ≠ [] → c'.hdr_sent = c.hdr_buf.length)) ∧
    (∀ tl buf sent, send_buffer (SendR.block :: tl) buf sent =
        if buf.length ≤ sent then ([], sent, 1, SendR.block :: tl) else ([], sent, 0, tl)) ∧
    (∀ n tl buf sent, sent < buf.length →
        send_buffer (SendR.ok n :: tl) buf sent =
          ((buf.drop sent).take (min n (buf.length - sent)) ++
            (send_buffer tl buf (sent + min n (buf.length - sent))).1,
           (send_buffer tl buf (sent + min n (buf.length - sent))).2)) := by
  have hwf : WF c := ⟨by rw [h0]; exact Nat.zero_le _, by rw [h1]; exact Nat.zero_le _,
    by rw [h3]; exact Nat.zero_le _⟩
  have hbp : bodyPending c = respBody c := by
    unfold bodyPending respBody
    rw [h1, h2, h3]
    cases c.file <;> simp
  have hp : pending c = c.hdr_buf ++ respBody c := by
    unfold pending
    rw [hbp, h0, List.drop_zero]
  refine ⟨?_, ?_, ?_, ?_, ?_⟩
  · intro ss D c' r heq hr1
    obtain ⟨-, e2, e3⟩ := driveS_spec ss c hwf D c' r heq
    rw [e3 hr1, List.append_nil] at e2
    rw [← hp, e2]
  · intro D c' r heq
    have hle : (pending c).length ≤ (c.hdr_buf ++ respBody c).length := by rw [hp]
    obtain ⟨e1, e2, -⟩ := drive_exact _ c hwf hle D c' r heq
    exact ⟨by rw [e1, hp], e2⟩
  · intro sched d c' r heq
    obtain ⟨-, -, -, -, -, -, -, -, -, -, ⟨db, hdb1, hdb2⟩, -⟩ :=
      write_spec sched c hwf d c' r heq
    rw [h0, List.drop_zero, Nat.sub_zero] at hdb1
    exact ⟨db, hdb1, hdb2⟩
  · intro tl buf sent
    by_cases hb : buf.length ≤ sent
    · rw [sb_done _ _ _ hb, if_pos hb]
    · rw [sb_block _ _ _ hb, if_neg hb]
  · intro n tl buf sent hlt
    exact sb_ok n tl buf sent (by omega)

theorem write_response_stream_exact_witness :
    connMemW.hdr_sent = 0 ∧
    (∀ D c' r, drive ((connMemW.hdr_buf ++ respBody connMemW).length + 1) connMemW =
        (D, c', r) → D = connMemW.hdr_buf ++ respBody connMemW ∧ r = 1) ∧
    (∀ D c' r, drive ((connFileW.hdr_buf ++ respBody connFileW).length + 1) connFileW =
        (D, c', r) → D = connFileW.hdr_buf ++ respBody connFileW ∧ r = 1) :=
  ⟨rfl, (write_response_stream_exact connMemW rfl rfl rfl rfl).2.1,
   (write_response_stream_exact connFileW rfl rfl rfl rfl).2.1⟩

/-! ## Claim C9 -/

theorem make_error_WF (date : String) (c : Conn) (status : Nat) (ih ia : Bool)
    (hwf : WF c) : WF (make_error_response date c status ih ia).2 := by
  unfold make_error_response
  dsimp only []
  split
  · exact ⟨hwf.1, Nat.zero_le _, Nat.zero_le _⟩
  · exact ⟨Nat.zero_le _, Nat.zero_le _, Nat.zero_le _⟩

theorem prepare_response_WF (fs : FS) (date : String) (root : List Char) (c : Conn)
    (hwf : WF c) : WF (prepare_response fs date root c).2 := by
  unfold prepare_response
  dsimp only []
  split
  · exact make_error_WF date c 400 false false hwf
  · exact make_error_WF date c 405 false true hwf
  · split
    · exact make_error_WF date c _ _ false hwf
    · split
      · exact make_error_WF date c _ _ false hwf
      · split
        · exact make_error_WF date c 500 _ false hwf
        · split
          · exact ⟨Nat.zero_le _, Nat.zero_le _, Nat.zero_le _⟩
          · split
            · exact make_error_WF date _ _ _ false
                ⟨Nat.zero_le _, Nat.zero_le _, Nat.zero_le _⟩
            · exact ⟨Nat.zero_le _, Nat.zero_le _, Nat.zero_le _⟩

theorem read_client_request_WF (fs : FS) (date : String) (root : List Char) (budget : Nat) :
    ∀ (sched : List RecvR) (c : Conn), WF c →
    WF (read_client_request fs date root budget sched c).2 := by
  intro sched
  induction sched with
  | nil =>
    intro c hwf
    unfold read_client_request
    exact hwf
  | cons hd tl ih =>
    intro c hwf
    cases hd with
    | block =>
      unfold read_client_request
      exact hwf
    | errR =>
      unfold read_client_request
      exact hwf
    | data bs =>
      unfold read_client_request
      dsimp only []
      split
      · exact hwf
      · split
        · exact make_error_WF date _ 400 false false ⟨hwf.1, hwf.2.1, hwf.2.2⟩
        · split
          · exact prepare_response_WF fs date root _ ⟨hwf.1, hwf.2.1, hwf.2.2⟩
          · exact ih _ ⟨hwf.1, hwf.2.1, hwf.2.2⟩

/-- Claim C9: the bytes-sent counter of each buffer never exceeds that
buffer's length — the header-sent counter stays within the header buffer,
the memory-body-sent counter within the memory body, the chunk-sent
counter within the chunk — and this invariant is preserved by the read
transition, response preparation, the write transition, and slot reset. -/
theorem sent_counters_bounded :
    (∀ fs date root budget sched c, WF c →
        WF (read_client_request fs date root budget sched c).2) ∧
    (∀ fs date root c, WF c → WF (prepare_response fs date root c).2) ∧
    (∀ sched c, WF c → WF (write_client_response sched c).2.1) ∧
    WF resetConn := by
  refine ⟨fun fs date root budget sched c hwf =>
      read_client_request_WF fs date root budget sched c hwf,
    fun fs date root c hwf => prepare_response_WF fs date root c hwf, ?_,
    ⟨le_refl _, le_refl _, le_refl _⟩⟩
  intro sched c hwf
  rcases hw : write_client_response sched c with ⟨d, c', r⟩
  exact (write_spec sched c hwf d c' r hw).1

theorem sent_counters_bounded_witness :
    WF connMemW ∧ WF (write_client_response [SendR.ok 1] connMemW).2.1 :=
  ⟨by decide, sent_counters_bounded.2.2.1 [SendR.ok 1] connMemW (by decide)⟩

/-! ## Claim C4 -/

/-- Claim C4 counterexample: with a 4-byte destination holding `"XYZOLD"`,
`build_response_headers` reports failure (-1) but the destination no longer
holds its previous contents — `snprintf` has written a NUL-terminated
truncated prefix of the header text into it. -/
theorem build_headers_writes_on_failure :
    (build_response_headers (toL "XYZOLD") 4 200 "t" 0 false "D").2 = -1 ∧
    (build_response_headers (toL "XYZOLD") 4 200 "t" 0 false "D").1 ≠ toL "XYZOLD" := by
  decide

/-- Claim C4 (amended): for every destination capacity too small to hold the
fully formatted header block, `build_response_headers` fails cleanly by
returning the error value -1 so no caller ever treats the buffer as a valid
header; the destination, however, is not left unchanged — it receives the
NUL-terminated truncated prefix of the formatted output (nothing is written
only when the capacity is zero), and never more than `cap` bytes. -/
theorem build_headers_too_small (dst : List Char) (cap : Nat) (status : Nat)
    (ct : String) (cl : Nat) (al : Bool) (date : String)
    (h : cap ≤ (headerString status ct cl al date).length) :
    (build_response_headers dst cap status ct cl al date).2 = -1 ∧
    (build_response_headers dst cap status ct cl al date).1 =
      (if cap = 0 then dst
       else (headerString status ct cl al date).take (cap - 1) ++ [nulC] ++ dst.drop cap) := by
  unfold build_response_headers snprintfL
  dsimp only []
  rw [if_pos h]
  by_cases hc : cap = 0
  · rw [if_pos hc, if_pos hc]
    exact ⟨rfl, rfl⟩
  · rw [if_neg hc, if_neg hc]
    have hmin : min (headerString status ct cl al date).length (cap - 1) = cap - 1 := by
      omega
    rw [hmin]
    refine ⟨rfl, ?_⟩
    have hcap : cap - 1 + 1 = cap := by omega
    rw [hcap]

theorem build_headers_too_small_witness :
    4 ≤ (headerString 200 "t" 0 false "D").length ∧
    (build_response_headers (toL "XYZOLD") 4 200 "t" 0 false "D").2 = -1 :=
  ⟨by decide, (build_headers_too_small (toL "XYZOLD") 4 200 "t" 0 false "D" (by decide)).1⟩

/-! ## Parser reduction helpers -/

theorem frle_ne_nil (raw : List Char) (le : Nat)
    (h : find_request_line_end raw = some le) : raw.length ≠ 0 := by
  cases raw with
  | nil => exact absurd h (by unfold find_request_line_end; simp)
  | cons a t => simp

theorem parse_reduce (raw : List Char) (le : Nat) (m t v : List Char)
    (h1 : find_request_line_end raw = some le) (h2 : le ≠ 0) (h3 : le < 2048)
    (h4 : sscanf3 (lineOf raw le) = (3, m, t, v))
    (h5 : v = toL "HTTP/1.1" ∨ v = toL "HTTP/1.0") :
    parse_http_request raw = parseCont m t := by
  unfold parse_http_request
  rw [if_neg (frle_ne_nil raw le h1), h1]
  dsimp only []
  rw [if_neg (show ¬ (le = 0 ∨ 2048 ≤ le) by omega)]
  simp only [h4]
  rw [if_neg (show ¬ ((3 : Nat) ≠ 3) by omega)]
  rw [if_neg (show ¬ (v ≠ toL "HTTP/1.1" ∧ v ≠ toL "HTTP/1.0") from
    fun hc => by rcases h5 with h | h; exacts [hc.1 h, hc.2 h])]
  unfold parseCont
  rfl

/-! ## Claim C7 -/

/-- Claim C7 counterexample: the raw request `"GET /a HTTP/1.1 extra\r\n\r\n"`
has a first line of four whitespace-delimited tokens, yet the parser accepts
it (outcome ok, method GET, target `/a`) instead of returning bad syntax. -/
theorem parse_extra_token_accepted :
    find_request_line_end c7raw = some 21 ∧
    (specWsTokens (lineOf c7raw 21)).length = 4 ∧
    parse_http_request c7raw = parse_result.ok ⟨http_method_t.GET, toL "/a"⟩ := by
  decide

/-- Claim C7 (amended): a raw request whose first line yields fewer than
three tokens under the parser's `sscanf` scan, or whose version token is
neither of the two fixed literals HTTP/1.0 and HTTP/1.1, is rejected with the
bad-syntax outcome and answered with status 400; tokens after the third are
ignored, so a first line with extra trailing tokens whose first three are
valid is accepted rather than rejected. -/
theorem parse_request_line_shape (raw : List Char) (le : Nat)
    (h1 : find_request_line_end raw = some le) (h2 : le ≠ 0) (h3 : le < 2048) :
    ((sscanf3 (lineOf raw le)).1 ≠ 3 → parse_http_request raw = parse_result.err400) ∧
    (∀ m t v, sscanf3 (lineOf raw le) = (3, m, t, v) → v ≠ toL "HTTP/1.1" →
      v ≠ toL "HTTP/1.0" → parse_http_request raw = parse_result.err400) ∧
    (∀ fs date root c, parse_http_request c.req_buf = parse_result.err400 →
      prepare_response fs date root c = make_error_response date c 400 false false) := by
  refine ⟨?_, ?_, ?_⟩
  · intro hne
    unfold parse_http_request
    rw [if_neg (frle_ne_nil raw le h1), h1]
    dsimp only []
    rw [if_neg (show ¬ (le = 0 ∨ 2048 ≤ le) by omega), if_pos hne]
  · intro m t v h4 hv1 hv0
    unfold parse_http_request
    rw [if_neg (frle_ne_nil raw le h1), h1]
    dsimp only []
    rw [if_neg (show ¬ (le = 0 ∨ 2048 ≤ le) by omega)]
    simp only [h4]
    rw [if_neg (show ¬ ((3 : Nat) ≠ 3) by omega), if_pos ⟨hv1, hv0⟩]
  · intro fs date root c hp
    unfold prepare_response
    rw [hp]

theorem parse_request_line_shape_witness :
    find_request_line_end (toL "GET /a BAD/1.1\r\n\r\n") = some 14 ∧
    parse_http_request (toL "GET /a BAD/1.1\r\n\r\n") = parse_result.err400 :=
  ⟨by decide,
   (parse_request_line_shape (toL "GET /a BAD/1.1\r\n\r\n") 14 (by decide) (by decide)
      (by decide)).2.1 (toL "GET") (toL "/a") (toL "BAD/1.1") (by decide) (by decide)
      (by decide)⟩

/-! ## Claim C6 -/

/-- Claim C6: a syntactically valid request line whose method token matches
neither recognized method case-insensitively yields the unsupported-method
outcome (405, not a parse failure) with the target still extracted; the
server then stages exactly the 405 error response, whose headers carry an
`Allow` header naming exactly the two recognized methods GET and HEAD. -/
theorem unsupported_method_405_allow (raw : List Char) (le : Nat) (m t v : List Char)
    (h1 : find_request_line_end raw = some le) (h2 : le ≠ 0) (h3 : le < 2048)
    (h4 : sscanf3 (lineOf raw le) = (3, m, t, v))
    (h5 : v = toL "HTTP/1.1" ∨ v = toL "HTTP/1.0")
    (h6 : t.head? = some '/')
    (h7 : t.any isCntrl = false)
    (h8 : lowerEq m (toL "GET") = false) (h9 : lowerEq m (toL "HEAD") = false) :
    parse_http_request raw = parse_result.err405 ⟨http_method_t.UNSUPPORTED, t⟩ ∧
    (∀ fs date root c, c.req_buf = raw →
      prepare_response fs date root c = make_error_response date c 405 false true) ∧
    (∀ date (c0 : Conn),
      (headerString 405 "text/html; charset=utf-8" (errorBody 405).length true
        date).length < 2048 →
      (make_error_response date c0 405 false true).1 = 0 ∧
      (make_error_response date c0 405 false true).2.mode = Mode.writing ∧
      ∃ a b, (make_error_response date c0 405 false true).2.hdr_buf =
        a ++ toL "Allow: GET, HEAD\r\n" ++ b) := by
  have hparse : parse_http_request raw = parse_result.err405 ⟨http_method_t.UNSUPPORTED, t⟩ := by
    rw [parse_reduce raw le m t v h1 h2 h3 h4 h5]
    rcases t with - | ⟨a, t'⟩
    · exact absurd h6 (by simp)
    · have ha : a = '/' := by
        simp only [List.head?] at h6
        exact Option.some.inj h6
      subst ha
      unfold parseCont
      rw [if_neg (by rw [h7]; simp), if_neg (by rw [h8]; simp), if_neg (by rw [h9]; simp)]
      rfl
  refine ⟨hparse, ?_, ?_⟩
  · intro fs date root c hc
    unfold prepare_response
    rw [hc, hparse]
  · intro date c0 hfit
    unfold make_error_response
    dsimp only []
    rw [if_neg (by omega)]
    refine ⟨rfl, rfl, ?_⟩
    refine ⟨toL "HTTP/1.1 " ++ toL (toString 405) ++ toL " " ++
      toL (http_reason_phrase 405) ++ toL "\r\nDate: " ++ toL date ++
      toL "\r\nServer: comp4981-httpd/1.0\r\nConnection: close\r\nContent-Type: " ++
      toL "text/html; charset=utf-8" ++ toL "\r\nContent-Length: " ++
      toL (toString (errorBody 405).length) ++ toL "\r\n", toL "\r\n", ?_⟩
    show headerString 405 "text/html; charset=utf-8" (errorBody 405).length true date = _
    unfold headerString
    simp [List.append_assoc]

theorem unsupported_method_405_allow_witness :
    parse_http_request (toL "FOO /a HTTP/1.1\r\n\r\n") =
      parse_result.err405 ⟨http_method_t.UNSUPPORTED, toL "/a"⟩ ∧
    (∀ fs root c, c.req_buf = toL "FOO /a HTTP/1.1\r\n\r\n" →
      prepare_response fs dateW root c = make_error_response dateW c 405 false true) := by
  have h := unsupported_method_405_allow (toL "FOO /a HTTP/1.1\r\n\r\n") 15 (toL "FOO")
    (toL "/a") (toL "HTTP/1.1") (by decide) (by decide) (by decide) (by decide)
    (by decide) (by decide) (by decide) (by decide) (by decide)
  exact ⟨h.1, fun fs root c hc => h.2.1 fs dateW root c hc⟩

/-! ## Claim C10 -/

theorem make_error_proj (date : String) (c1 c2 : Conn) (status : Nat) (ih ia : Bool)
    (hh : c1.hdr_buf = c2.hdr_buf) :
    (make_error_response date c1 status ih ia).1 =
      (make_error_response date c2 status ih ia).1 ∧
    (make_error_response date c1 status ih ia).2.hdr_buf =
      (make_error_response date c2 status ih ia).2.hdr_buf ∧
    (make_error_response date c1 status ih ia).2.mem_body =
      (make_error_response date c2 status ih ia).2.mem_body ∧
    (make_error_response date c1 status ih ia).2.file =
      (make_error_response date c2 status ih ia).2.file ∧
    (make_error_response date c1 status ih ia).2.is_head =
      (make_error_response date c2 status ih ia).2.is_head := by
  unfold make_error_response
  dsimp only []
  split
  · exact ⟨rfl, hh, rfl, rfl, rfl⟩
  · exact ⟨rfl, rfl, rfl, rfl, rfl⟩

set_option maxHeartbeats 1000000 in
theorem prepare_req_only (fs : FS) (date : String) (root : List Char) (c : Conn)
    (raw1 raw2 : List Char) (hp : parse_http_request raw1 = parse_http_request raw2) :
    (prepare_response fs date root { c with req_buf := raw1 }).1 =
      (prepare_response fs date root { c with req_buf := raw2 }).1 ∧
    (prepare_response fs date root { c with req_buf := raw1 }).2.hdr_buf =
      (prepare_response fs date root { c with req_buf := raw2 }).2.hdr_buf ∧
    (prepare_response fs date root { c with req_buf := raw1 }).2.mem_body =
      (prepare_response fs date root { c with req_buf := raw2 }).2.mem_body ∧
    (prepare_response fs date root { c with req_buf := raw1 }).2.file =
      (prepare_response fs date root { c with req_buf := raw2 }).2.file ∧
    (prepare_response fs date root { c with req_buf := raw1 }).2.is_head =
      (prepare_response fs date root { c with req_buf := raw2 }).2.is_head := by
  unfold prepare_response
  dsimp only []
  rw [hp]
  generalize parse_http_request raw2 = pr
  rcases pr with - | out | req
  · exact make_error_proj date { c with req_buf := raw1 } { c with req_buf := raw2 }
      400 false false rfl
  · exact make_error_proj date { c with req_buf := raw1 } { c with req_buf := raw2 }
      405 false true rfl
  · dsimp only []
    generalize resolve_path fs root req.target 4096 = rr
    rcases rr with fs_path | code
    · dsimp only []
      generalize fs.stat fs_path = stres
      rcases stres with e | st
      · dsimp only []
        exact make_error_proj date { c with req_buf := raw1 } { c with req_buf := raw2 }
          (status_from_errno e) (req.method == http_method_t.HEAD) false rfl
      · dsimp only []
        split
        · exact make_error_proj date { c with req_buf := raw1 } { c with req_buf := raw2 }
            500 (req.method == http_method_t.HEAD) false rfl
        · split
          · exact ⟨rfl, rfl, rfl, rfl, rfl⟩
          · generalize fs.openFile fs_path = ores
            rcases ores with e | content
            · dsimp only []
              exact make_error_proj date _ _
                (status_from_errno e) (req.method == http_method_t.HEAD) false rfl
            · exact ⟨rfl, rfl, rfl, rfl, rfl⟩
    · dsimp only []
      exact make_error_proj date { c with req_buf := raw1 } { c with req_buf := raw2 }
        (if code ≠ 400 ∧ code ≠ 403 ∧ code ≠ 404 then 500 else code)
        (req.method == http_method_t.HEAD) false rfl

/-- Claim C10: every response's status line begins with the fixed literal
`HTTP/1.1 ` regardless of the request's version token, and the request's
version token (HTTP/1.0 versus HTTP/1.1) never influences any byte of the
response: two requests identical except for their (accepted) version token
parse identically and produce identical response state. -/
theorem response_version_fixed :
    (∀ status ct cl al date,
      (toL "HTTP/1.1 ").isPrefixOf (headerString status ct cl al date) = true) ∧
    (∀ raw1 raw2 le1 le2 m t v1 v2,
      find_request_line_end raw1 = some le1 → le1 ≠ 0 → le1 < 2048 →
      sscanf3 (lineOf raw1 le1) = (3, m, t, v1) →
      (v1 = toL "HTTP/1.1" ∨ v1 = toL "HTTP/1.0") →
      find_request_line_end raw2 = some le2 → le2 ≠ 0 → le2 < 2048 →
      sscanf3 (lineOf raw2 le2) = (3, m, t, v2) →
      (v2 = toL "HTTP/1.1" ∨ v2 = toL "HTTP/1.0") →
      parse_http_request raw1 = parse_http_request raw2 ∧
      (∀ (fs : FS) (date : String) (root : List Char) (c : Conn),
        (prepare_response fs date root { c with req_buf := raw1 }).1 =
          (prepare_response fs date root { c with req_buf := raw2 }).1 ∧
        (prepare_response fs date root { c with req_buf := raw1 }).2.hdr_buf =
          (prepare_response fs date root { c with req_buf := raw2 }).2.hdr_buf ∧
        (prepare_response fs date root { c with req_buf := raw1 }).2.mem_body =
          (prepare_response fs date root { c with req_buf := raw2 }).2.mem_body ∧
        (prepare_response fs date root { c with req_buf := raw1 }).2.file =
          (prepare_response fs date root { c with req_buf := raw2 }).2.file ∧
        (prepare_response fs date root { c with req_buf := raw1 }).2.is_head =
          (prepare_response fs date root { c with req_buf := raw2 }).2.is_head)) := by
  constructor
  · intro status ct cl al date
    rw [List.isPrefixOf_iff_prefix]
    unfold headerString
    simp only [List.append_assoc]
    exact List.prefix_append _ _
  · intro raw1 raw2 le1 le2 m t v1 v2 h1 h2 h3 h4 h5 g1 g2 g3 g4 g5
    have hp : parse_http_request raw1 = parse_http_request raw2 := by
      rw [parse_reduce raw1 le1 m t v1 h1 h2 h3 h4 h5,
        parse_reduce raw2 le2 m t v2 g1 g2 g3 g4 g5]
    exact ⟨hp, fun fs date root c => prepare_req_only fs date root c raw1 raw2 hp⟩

theorem response_version_fixed_witness :
    (toL "HTTP/1.1 ").isPrefixOf (headerString 200 "t" 5 false dateW) = true ∧
    parse_http_request (toL "GET /a HTTP/1.0\r\n\r\n") =
      parse_http_request (toL "GET /a HTTP/1.1\r\n\r\n") :=
  ⟨response_version_fixed.1 200 "t" 5 false dateW,
   (response_version_fixed.2 (toL "GET /a HTTP/1.0\r\n\r\n") (toL "GET /a HTTP/1.1\r\n\r\n")
      15 15 (toL "GET") (toL "/a") (toL "HTTP/1.0") (toL "HTTP/1.1") (by decide) (by decide)
      (by decide) (by decide) (by decide) (by decide) (by decide) (by decide) (by decide)
      (by decide)).1⟩

/-! ## Claim C3 -/

/-- Claim C3: for a well-formed HEAD request whose target resolves and
stats successfully and whose headers fit their buffer, `prepare_response`
never opens the file (the slot's file handle stays `none`), the staged
headers carry a `Content-Length` naming the size reported by the
filesystem, the staged body is empty, and completing the header flush
alone completes the response (`drive` delivers exactly the headers and
returns done) with zero body bytes sent. -/
theorem head_request_headers_only (fs : FS) (date : String) (root : List Char) (c : Conn)
    (req : http_request_t) (p : List Char) (st : FSStat)
    (hq : parse_http_request c.req_buf = parse_result.ok req)
    (hm : req.method = http_method_t.HEAD)
    (hr : resolve_path fs root req.target 4096 = RR.ok p)
    (hst : fs.stat p = Except.ok st)
    (hfit : (headerString 200 (guess_mime_type p) st.size false date).length < 2048) :
    (prepare_response fs date root c).1 = 0 ∧
    (prepare_response fs date root c).2.file = none ∧
    (prepare_response fs date root c).2.hdr_buf =
      headerString 200 (guess_mime_type p) st.size false date ∧
    (∃ a b, (prepare_response fs date root c).2.hdr_buf =
      a ++ (toL "\r\nContent-Length: " ++ toL (toString st.size) ++ toL "\r\n") ++ b) ∧
    (prepare_response fs date root c).2.mem_body = [] ∧
    (prepare_response fs date root c).2.is_head = true ∧
    respBody (prepare_response fs date root c).2 = [] ∧
    pending (prepare_response fs date root c).2 =
      headerString 200 (guess_mime_type p) st.size false date ∧
    (∀ k D c3 r, (headerString 200 (guess_mime_type p) st.size false date).length ≤ k →
      drive (k + 1) (prepare_response fs date root c).2 = (D, c3, r) →
      D = headerString 200 (guess_mime_type p) st.size false date ∧ r = 1) := by
  have hmb : (req.method == http_method_t.HEAD) = true := by rw [hm]; rfl
  have hprep : prepare_response fs date root c =
      (0, { c with hdr_buf := headerString 200 (guess_mime_type p) st.size false date,
                   hdr_sent := 0, mem_body := [], mem_sent := 0,
                   is_head := (req.method == http_method_t.HEAD), file := none,
                   file_size := st.size, file_sent := 0, chunk := [], chunk_sent := 0,
                   mode := Mode.writing }) := by
    unfold prepare_response
    dsimp only []
    rw [hq]
    dsimp only []
    rw [hr]
    dsimp only []
    rw [hst]
    dsimp only []
    rw [if_neg (by omega)]
    rw [if_pos hmb]
  have hpend : pending (prepare_response fs date root c).2 =
      headerString 200 (guess_mime_type p) st.size false date := by
    rw [hprep]
    simp [pending, bodyPending, hmb]
  have hWF : WF (prepare_response fs date root c).2 := by
    rw [hprep]
    exact ⟨Nat.zero_le _, Nat.zero_le _, Nat.zero_le _⟩
  refine ⟨by rw [hprep], by rw [hprep], by rw [hprep], ?_, by rw [hprep],
    by rw [hprep]; exact hmb, by rw [hprep]; simp [respBody, hmb], hpend, ?_⟩
  · refine ⟨toL "HTTP/1.1 " ++ toL (toString 200) ++ toL " " ++
      toL (http_reason_phrase 200) ++ toL "\r\nDate: " ++ toL date ++
      toL "\r\nServer: comp4981-httpd/1.0\r\nConnection: close\r\nContent-Type: " ++
      toL (guess_mime_type p), toL "\r\n", ?_⟩
    rw [hprep]
    show headerString 200 (guess_mime_type p) st.size false date = _
    unfold headerString
    simp [List.append_assoc]
  · intro k D c3 r hk hD
    have h := drive_exact k (prepare_response fs date root c).2 hWF
      (by rw [hpend]; exact hk) D c3 r hD
    rw [hpend] at h
    exact ⟨h.1, h.2.1⟩

set_option maxRecDepth 10000 in
theorem head_request_headers_only_witness :
    (prepare_response fsW dateW (toL "/srv") connHeadW).2.file = none ∧
    (prepare_response fsW dateW (toL "/srv") connHeadW).2.is_head = true ∧
    respBody (prepare_response fsW dateW (toL "/srv") connHeadW).2 = [] ∧
    (∃ a b, (prepare_response fsW dateW (toL "/srv") connHeadW).2.hdr_buf =
      a ++ (toL "\r\nContent-Length: " ++ toL (toString 5) ++ toL "\r\n") ++ b) := by
  have h := head_request_headers_only fsW dateW (toL "/srv") connHeadW
    ⟨http_method_t.HEAD, toL "/index.html"⟩ (toL "/srv/index.html") ⟨true, 5⟩
    rfl rfl rfl rfl (by decide)
  exact ⟨h.2.1, h.2.2.2.2.2.1, h.2.2.2.2.2.2.1, h.2.2.2.1⟩

/-! ## Claim C5 -/

/-- Claim C5: a recv step whose accumulated request bytes reach the header
byte budget makes the read transition stage a 400 error response; the
staged 400 is ready for the write phase (return 0, mode `writing`), the
write phase closes the slot as soon as the write transition reports done
or error (never leaving it hanging), and driving the staged 400 to
completion reports done; conversely a request that completes strictly
within the budget is handed to `prepare_response`, not rejected. -/
theorem header_budget_400 (fs : FS) (date : String) (root : List Char) (budget : Nat) :
    (∀ (c : Conn) (bs : List Char) (tl : List RecvR),
      bs ≠ [] →
      budget ≤ c.req_buf.length + (bs.take (budget - c.req_buf.length)).length →
      read_client_request fs date root budget (RecvR.data bs :: tl) c =
        make_error_response date
          { c with req_buf := c.req_buf ++ bs.take (budget - c.req_buf.length) }
          400 false false) ∧
    (∀ (c1 : Conn),
      (headerString 400 "text/html; charset=utf-8" (errorBody 400).length false
        date).length < 2048 →
      (make_error_response date c1 400 false false).1 = 0 ∧
      (make_error_response date c1 400 false false).2.mode = Mode.writing ∧
      (make_error_response date c1 400 false false).2.hdr_buf =
        headerString 400 "text/html; charset=utf-8" (errorBody 400).length false date) ∧
    (∀ (sched : List SendR) (c2 : Conn),
      (write_client_response sched c2).2.2 ≠ 0 → (handle_writable sched c2).2 = true) ∧
    (∀ (c1 : Conn) (k : Nat) (D : List Char) (c3 : Conn) (r : Int),
      (headerString 400 "text/html; charset=utf-8" (errorBody 400).length false
        date).length < 2048 →
      (pending (make_error_response date c1 400 false false).2).length ≤ k →
      drive (k + 1) (make_error_response date c1 400 false false).2 = (D, c3, r) →
      r = 1) ∧
    (∀ (c : Conn) (bs : List Char) (tl : List RecvR),
      bs ≠ [] →
      c.req_buf.length + (bs.take (budget - c.req_buf.length)).length < budget →
      has_header_end (c.req_buf ++ bs.take (budget - c.req_buf.length)) = true →
      read_client_request fs date root budget (RecvR.data bs :: tl) c =
        prepare_response fs date root
          { c with req_buf := c.req_buf ++ bs.take (budget - c.req_buf.length) }) := by
  refine ⟨?_, ?_, ?_, ?_, ?_⟩
  · intro c bs tl hbs hfull
    simp only [read_client_request]
    rw [if_neg hbs]
    dsimp only []
    rw [if_pos (by rw [List.length_append]; exact hfull)]
  · intro c1 hfit
    unfold make_error_response
    dsimp only []
    rw [if_neg (by omega)]
    exact ⟨rfl, rfl, rfl⟩
  · intro sched c2 hr
    unfold handle_writable
    dsimp only []
    simp only [Bool.or_eq_true, decide_eq_true_eq]
    omega
  · intro c1 k D c3 r hfit hlen hD
    have hme : (make_error_response date c1 400 false false).2 =
        { c1 with is_head := false, file := none, file_size := 0, file_sent := 0,
                  chunk := [], chunk_sent := 0, mem_body := errorBody 400, mem_sent := 0,
                  hdr_buf := headerString 400 "text/html; charset=utf-8"
                    (errorBody 400).length false date,
                  hdr_sent := 0, mode := Mode.writing } := by
      unfold make_error_response
      dsimp only []
      rw [if_neg (by omega)]
    have hWF : WF (make_error_response date c1 400 false false).2 := by
      rw [hme]
      exact ⟨Nat.zero_le _, Nat.zero_le _, Nat.zero_le _⟩
    exact (drive_exact k _ hWF hlen D c3 r hD).2.1
  · intro c bs tl hbs hsmall hend
    simp only [read_client_request]
    rw [if_neg hbs]
    dsimp only []
    rw [if_neg (by rw [List.length_append]; omega)]
    rw [if_pos hend]

theorem header_budget_400_witness :
    read_client_request fsW dateW (toL "/srv") 8 [RecvR.data (toL "GET /abcd")] resetConn =
      make_error_response dateW
        { resetConn with
          req_buf := resetConn.req_buf ++ (toL "GET /abcd").take (8 - resetConn.req_buf.length) }
        400 false false ∧
    read_client_request fsW dateW (toL "/srv") 2048
        [RecvR.data (toL "HEAD /index.html HTTP/1.1\r\n\r\n")] resetConn =
      prepare_response fsW dateW (toL "/srv")
        { resetConn with
          req_buf := resetConn.req_buf ++
            (toL "HEAD /index.html HTTP/1.1\r\n\r\n").take (2048 - resetConn.req_buf.length) } := by
  have h := header_budget_400 fsW dateW (toL "/srv") 8
  have h2 := header_budget_400 fsW dateW (toL "/srv") 2048
  exact ⟨h.1 resetConn (toL "GET /abcd") [] (by decide) (by decide),
    h2.2.2.2.2 resetConn (toL "HEAD /index.html HTTP/1.1\r\n\r\n") [] (by decide)
      (by decide) (by decide)⟩

/-! ## Claim C1 -/

theorem make_error_file_none (date : String) (c : Conn) (s : Nat) (ih ia : Bool) :
    (make_error_response date c s ih ia).2.file = none := by
  unfold make_error_response
  dsimp only []
  split <;> rfl

theorem spec_traversal_imp (s : List Char)
    (h : specParentSegment s = true ∨ specPercentParent s = true) :
    contains_traversal s = true ∧ s ≠ [] := by
  constructor
  · unfold specParentSegment specPercentParent at h
    simp only [Bool.or_eq_true] at h
    rcases h with ((h | h) | h) | ((((h | h) | h) | h) | h)
    · simp [contains_traversal, h]
    · simp [contains_traversal, h]
    · have hsuf : (toL "/..") <:+ s := List.isSuffixOf_iff_suffix.mp h
      have hlen : 3 ≤ s.length := hsuf.length_le
      simp [contains_traversal, h, hlen]
    · simp [contains_traversal, h]
    · simp [contains_traversal, h]
    · simp [contains_traversal, h]
    · simp [contains_traversal, h]
    · simp [contains_traversal, h]
  · rintro rfl
    revert h
    decide

theorem resolve_ok_spec (fs : FS) (root t : List Char) (sz : Nat) (p : List Char)
    (h : resolve_path fs root t sz = RR.ok p) :
    starts_with_doc_root p root = true ∧
    (∃ nm, fs.realpath (root ++ nm) = Except.ok p) ∧
    (∃ st, fs.stat p = Except.ok st ∧ st.isReg = true) := by
  unfold resolve_path at h
  by_cases hsz : sz = 0
  · rw [if_pos hsz] at h
    exact RR.noConfusion h
  · rw [if_neg hsz] at h
    split at h
    · unfold resolveAfterStrip at h
      dsimp only [] at h
      split at h
      · exact RR.noConfusion h
      · split at h
        · exact RR.noConfusion h
        · split at h
          · exact RR.noConfusion h
          · rename_i normalized hnorm
            split at h
            · exact RR.noConfusion h
            · split at h
              · exact RR.noConfusion h
              · exact RR.noConfusion h
              · exact RR.noConfusion h
              · rename_i canonical hreal
                split at h
                · split at h
                  · exact RR.noConfusion h
                  · exact RR.noConfusion h
                  · exact RR.noConfusion h
                  · rename_i st hstat
                    split at h
                    · split at h
                      · exact RR.noConfusion h
                      · rename_i hsw _ hisreg _
                        cases h
                        exact ⟨hsw, ⟨normalized, hreal⟩, ⟨st, hstat, hisreg⟩⟩
                    · exact RR.noConfusion h
                · exact RR.noConfusion h
    · exact RR.noConfusion h

/-- Claim C1: `resolve_path` succeeds only when the canonicalized path is
contained in the document root (equal to it, or extending it immediately
with a separator), the canonical path being the filesystem's
canonicalization of a root-prefixed candidate and naming a regular file;
a target whose stripped form carries a textual or percent-encoded
parent-directory segment is answered `403`; when every canonicalization
escapes the root (symlink indirection), `resolve_path` never succeeds;
`prepare_response` only ever opens the file a successful, contained
resolution named; and a `403` resolution makes `prepare_response` stage a
`403` error response. -/
theorem path_containment_403 :
    (∀ (fs : FS) (root t : List Char) (sz : Nat) (p : List Char),
      resolve_path fs root t sz = RR.ok p →
      starts_with_doc_root p root = true ∧
      root.isPrefixOf p = true ∧
      (p.length = root.length ∨ (p.drop root.length).head? = some '/') ∧
      (∃ nm, fs.realpath (root ++ nm) = Except.ok p) ∧
      (∃ st, fs.stat p = Except.ok st ∧ st.isReg = true)) ∧
    (∀ (fs : FS) (root t : List Char) (sz : Nat),
      sz ≠ 0 → t.head? = some '/' →
      (specParentSegment (stripTarget t) = true ∨
        specPercentParent (stripTarget t) = true) →
      resolve_path fs root t sz = RR.err 403) ∧
    (∀ (fs : FS) (root t : List Char) (sz : Nat) (p : List Char),
      (∀ cand canonical, fs.realpath cand = Except.ok canonical →
        starts_with_doc_root canonical root = false) →
      resolve_path fs root t sz ≠ RR.ok p) ∧
    (∀ (fs : FS) (date : String) (root : List Char) (c : Conn) (content : List Char),
      (prepare_response fs date root c).2.file = some content →
      ∃ req p, parse_http_request c.req_buf = parse_result.ok req ∧
        resolve_path fs root req.target 4096 = RR.ok p ∧
        starts_with_doc_root p root = true ∧
        fs.openFile p = Except.ok content) ∧
    (∀ (fs : FS) (date : String) (root : List Char) (c : Conn) (req : http_request_t),
      parse_http_request c.req_buf = parse_result.ok req →
      resolve_path fs root req.target 4096 = RR.err 403 →
      prepare_response fs date root c =
        make_error_response date c 403 (req.method == http_method_t.HEAD) false) := by
  have hcontain : ∀ (full root : List Char), starts_with_doc_root full root = true →
      root.isPrefixOf full = true ∧
      (full.length = root.length ∨ (full.drop root.length).head? = some '/') := by
    intro full root hsw
    unfold starts_with_doc_root at hsw
    rw [Bool.and_eq_true] at hsw
    obtain ⟨h1, h2⟩ := hsw
    refine ⟨h1, ?_⟩
    have hpre : root <+: full := List.isPrefixOf_iff_prefix.mp h1
    rcases hdrop : full.drop root.length with - | ⟨ch, rest⟩
    · left
      have hlen0 : full.length - root.length = 0 := by
        have := congrArg List.length hdrop
        simpa using this
      have hle : root.length ≤ full.length := hpre.length_le
      omega
    · right
      rw [hdrop] at h2
      split at h2
      · rename_i heq
        exact List.noConfusion heq
      · rename_i tail heq
        injection heq with h3 h4
        subst h3
        rfl
      · exact Bool.noConfusion h2
  refine ⟨?_, ?_, ?_, ?_, ?_⟩
  · intro fs root t sz p h
    obtain ⟨hsw, hreal, hstat⟩ := resolve_ok_spec fs root t sz p h
    obtain ⟨hp1, hp2⟩ := hcontain p root hsw
    exact ⟨hsw, hp1, hp2, hreal, hstat⟩
  · intro fs root t sz hsz hhead hor
    obtain ⟨hct, hne⟩ := spec_traversal_imp (stripTarget t) hor
    rcases t with - | ⟨ch, t'⟩
    · exact absurd hhead (by simp)
    · have hch : ch = '/' := by
        simp only [List.head?] at hhead
        exact Option.some.inj hhead
      subst hch
      unfold resolve_path
      rw [if_neg hsz]
      show resolveAfterStrip fs root (stripTarget ('/' :: t')) sz = RR.err 403
      unfold resolveAfterStrip
      rw [if_neg hne, if_pos hct]
  · intro fs root t sz p hesc hok
    obtain ⟨hsw, ⟨nm, hreal⟩, -⟩ := resolve_ok_spec fs root t sz p hok
    have hfalse := hesc _ _ hreal
    rw [hfalse] at hsw
    exact Bool.noConfusion hsw
  · intro fs date root c content
    unfold prepare_response
    dsimp only []
    rcases hq : parse_http_request c.req_buf with - | out | req
    · intro hfile
      rw [make_error_file_none] at hfile
      exact Option.noConfusion hfile
    · intro hfile
      rw [make_error_file_none] at hfile
      exact Option.noConfusion hfile
    · dsimp only []
      rcases hr : resolve_path fs root req.target 4096 with p | code
      · dsimp only []
        generalize fs.stat p = stres
        rcases stres with e | st
        · dsimp only []
          intro hfile
          rw [make_error_file_none] at hfile
          exact Option.noConfusion hfile
        · dsimp only []
          split
          · intro hfile
            rw [make_error_file_none] at hfile
            exact Option.noConfusion hfile
          · split
            · intro hfile
              exact Option.noConfusion hfile
            · rcases ho : fs.openFile p with e | cont
              · dsimp only []
                intro hfile
                rw [make_error_file_none] at hfile
                exact Option.noConfusion hfile
              · dsimp only []
                intro hfile
                have hcc : cont = content := Option.some.inj hfile
                subst hcc
                obtain ⟨hsw, -, -⟩ := resolve_ok_spec fs root req.target 4096 p hr
                exact ⟨req, p, rfl, hr, hsw, ho⟩
      · dsimp only []
        intro hfile
        rw [make_error_file_none] at hfile
        exact Option.noConfusion hfile
  · intro fs date root c req hq hr403
    unfold prepare_response
    dsimp only []
    rw [hq]
    dsimp only []
    rw [hr403]
    dsimp only []
    rw [if_neg (by decide : ¬((403 : Nat) ≠ 400 ∧ (403 : Nat) ≠ 403 ∧ (403 : Nat) ≠ 404))]

theorem path_containment_403_witness :
    resolve_path fsW (toL "/srv") (toL "/../etc/passwd") 4096 = RR.err 403 ∧
    resolve_path fsW (toL "/srv") (toL "/out.html") 4096 = RR.err 403 :=
  ⟨path_containment_403.2.1 fsW (toL "/srv") (toL "/../etc/passwd") 4096
      (by decide) (by decide) (Or.inl (by decide)),
   by rfl⟩

/-! ## Claim C8 -/

theorem pref_le : ∀ (pat a : List Char) (b : List Char), pat.length ≤ a.length →
    pat.isPrefixOf (a ++ b) = pat.isPrefixOf a := by
  intro pat
  induction pat with
  | nil => intro a b h; simp [List.isPrefixOf_iff_prefix]
  | cons p ps ih =>
    intro a b h
    rcases a with - | ⟨a0, as⟩
    · simp at h
    · show ((p == a0) && ps.isPrefixOf (as ++ b)) = ((p == a0) && ps.isPrefixOf as)
      rw [ih as b (by simpa using h)]

theorem pref_boundary0 (pat : List Char) (c : Char) (xs : List Char)
    (hne : pat ≠ []) (hc : c ∈ pat → False) : pat.isPrefixOf (c :: xs) = false := by
  rcases pat with - | ⟨p0, ps⟩
  · exact absurd rfl hne
  · show ((p0 == c) && ps.isPrefixOf xs) = false
    have : (p0 == c) = false := by
      rcases h : p0 == c with - | -
      · rfl
      · rw [beq_iff_eq] at h
        subst h
        exact (hc (List.Mem.head ps)).elim
    rw [this, Bool.false_and]

theorem pref_boundary : ∀ (pat t : List Char) (c : Char) (xs : List Char),
    (c ∈ pat → False) → t ≠ [] → pat.isPrefixOf (t ++ c :: xs) = pat.isPrefixOf t := by
  intro pat
  induction pat with
  | nil => intro t c xs hc ht; simp [List.isPrefixOf_iff_prefix]
  | cons p ps ih =>
    intro t c xs hc ht
    rcases t with - | ⟨a0, as⟩
    · exact absurd rfl ht
    · show ((p == a0) && ps.isPrefixOf (as ++ c :: xs)) = ((p == a0) && ps.isPrefixOf as)
      rcases as with - | ⟨a1, as'⟩
      · rcases ps with - | ⟨q, qs⟩
        · rfl
        · rw [show List.isPrefixOf (q :: qs) ([] ++ c :: xs) =
            List.isPrefixOf (q :: qs) (c :: xs) from rfl]
          rw [pref_boundary0 (q :: qs) c xs (by simp)
            (fun hm => hc (List.Mem.tail p hm))]
          rfl
      · rw [ih (a1 :: as') c xs (fun hm => hc (List.Mem.tail p hm)) (by simp)]

theorem sub_boundary : ∀ (pat t : List Char) (c : Char) (xs : List Char),
    pat ≠ [] → (c ∈ pat → False) →
    hasSub pat (t ++ c :: xs) = (hasSub pat t || hasSub pat (c :: xs)) := by
  intro pat t
  induction t with
  | nil =>
    intro c xs hne hc
    rw [show ([] : List Char) ++ c :: xs = c :: xs from rfl]
    have : hasSub pat [] = false := by
      rcases pat with - | ⟨p0, ps⟩
      · exact absurd rfl hne
      · rfl
    rw [this, Bool.false_or]
  | cons a t' ih =>
    intro c xs hne hc
    show (pat.isPrefixOf (a :: (t' ++ c :: xs)) || hasSub pat (t' ++ c :: xs)) =
      ((pat.isPrefixOf (a :: t') || hasSub pat t') || hasSub pat (c :: xs))
    rw [show a :: (t' ++ c :: xs) = (a :: t') ++ c :: xs from rfl]
    rw [pref_boundary pat (a :: t') c xs hc (by simp)]
    rw [ih c xs hne hc]
    rw [Bool.or_assoc]

theorem suffix_of_append_le (pat a b : List Char) (h : pat.length ≤ b.length) :
    pat.isSuffixOf (a ++ b) = pat.isSuffixOf b := by
  show pat.reverse.isPrefixOf (a ++ b).reverse = pat.reverse.isPrefixOf b.reverse
  rw [List.reverse_append]
  exact pref_le pat.reverse b.reverse a.reverse (by simpa using h)

theorem suffix_slash (t : List Char) (hlast : t.getLast? = some '/') :
    (toL "/..").isSuffixOf t = false := by
  have hh : t.reverse.head? = some '/' := by rw [List.head?_reverse]; exact hlast
  rcases htr : t.reverse with - | ⟨c, r⟩
  · rw [htr] at hh; exact Option.noConfusion hh
  · rw [htr] at hh
    have hc : c = '/' := Option.some.inj hh
    subst hc
    show (toL "/..").reverse.isPrefixOf t.reverse = false
    rw [htr]
    show (('.' == '/') && List.isPrefixOf ['.', '/'] r) = false
    rw [show ('.' == '/') = false from rfl, Bool.false_and]

theorem contains_append_or (l₁ l₂ : List Char) (a : Char) :
    (l₁ ++ l₂).contains a = (l₁.contains a || l₂.contains a) := by
  simp [List.contains, List.elem_eq_mem, List.mem_append, Bool.decide_or]

theorem ddoc_take_cons (k : Nat) (hk : 1 ≤ k) :
    default_doc.take k = 'i' :: (toL "ndex.html").take (k - 1) := by
  rcases k with - | j
  · omega
  · rfl

theorem pats_ne_nil (pat : List Char)
    (hpat : pat ∈ [toL "/../", toL "%2e%2e", toL "%2E%2E", toL "%2e.", toL ".%2e",
      toL "%2E."]) : pat ≠ [] := by
  have h : ∀ p ∈ [toL "/../", toL "%2e%2e", toL "%2E%2E", toL "%2e.", toL ".%2e",
      toL "%2E."], p ≠ [] := by decide
  exact h pat hpat

theorem i_not_mem (pat : List Char)
    (hpat : pat ∈ [toL "/../", toL "%2e%2e", toL "%2E%2E", toL "%2e.", toL ".%2e",
      toL "%2E."]) : 'i' ∈ pat → False := by
  have h : ∀ p ∈ [toL "/../", toL "%2e%2e", toL "%2E%2E", toL "%2e.", toL ".%2e",
      toL "%2E."], 'i' ∈ p → False := by decide
  exact h pat hpat

theorem subx_false (pat : List Char)
    (hpat : pat ∈ [toL "/../", toL "%2e%2e", toL "%2E%2E", toL "%2e.", toL ".%2e",
      toL "%2E."]) (j : Nat) : hasSub pat ((toL "ndex.html").take j) = false := by
  rcases Nat.lt_or_ge j 9 with h | h
  · have hb : ∀ p ∈ [toL "/../", toL "%2e%2e", toL "%2E%2E", toL "%2e.", toL ".%2e",
        toL "%2E."], ∀ i, i < 9 → hasSub p ((toL "ndex.html").take i) = false := by decide
    exact hb pat hpat j h
  · rw [List.take_of_length_le (le_trans (by decide) h)]
    have hfull : ∀ p ∈ [toL "/../", toL "%2e%2e", toL "%2E%2E", toL "%2e.", toL ".%2e",
        toL "%2E."], hasSub p (toL "ndex.html") = false := by decide
    exact hfull pat hpat

theorem suffix_take_false (k : Nat) (hk1 : 1 ≤ k) (hk2 : k ≤ 10) (t : List Char) :
    (toL "/..").isSuffixOf (t ++ default_doc.take k) = false := by
  rcases Nat.lt_or_ge k 3 with h | h
  · have hk12 : k = 1 ∨ k = 2 := by omega
    rcases hk12 with rfl | rfl
    · show (toL "/..").reverse.isPrefixOf (t ++ default_doc.take 1).reverse = false
      rw [show default_doc.take 1 = ['i'] from rfl, List.reverse_append]
      show (('.' == 'i') && List.isPrefixOf ['.', '/'] ([].reverse ++ t.reverse)) = false
      rw [show ('.' == 'i') = false from rfl, Bool.false_and]
    · show (toL "/..").reverse.isPrefixOf (t ++ default_doc.take 2).reverse = false
      rw [show default_doc.take 2 = ['i', 'n'] from rfl, List.reverse_append]
      show (('.' == 'n') && List.isPrefixOf ['.', '/'] (['i'].reverse ++ t.reverse)) = false
      rw [show ('.' == 'n') = false from rfl, Bool.false_and]
  · rw [suffix_of_append_le _ _ _ (by rw [List.length_take]; simp [default_doc, toL]; omega)]
    have hb : ∀ j, j < 11 → (toL "/..").isSuffixOf (default_doc.take j) = false := by decide
    exact hb k (by omega)

theorem traversal_transfer (t : List Char) (k : Nat) (hk1 : 1 ≤ k) (hk2 : k ≤ 10)
    (hne : t ≠ []) (hlast : t.getLast? = some '/') (hlen : 11 ≤ t.length + k) :
    contains_traversal (t ++ default_doc.take k) = contains_traversal t := by
  have hxcons := ddoc_take_cons k hk1
  have hContains : (t ++ default_doc.take k).contains '\\' = t.contains '\\' := by
    rw [contains_append_or]
    have hb : ∀ j, j < 11 → (default_doc.take j).contains '\\' = false := by decide
    rw [hb k (by omega), Bool.or_false]
  have hBeq : ((t ++ default_doc.take k) == toL "/..") = false := by
    rcases hb : (t ++ default_doc.take k) == toL "/.." with - | -
    · rfl
    · rw [beq_iff_eq] at hb
      have hl := congrArg List.length hb
      rw [List.length_append, List.length_take] at hl
      have hdl : default_doc.length = 10 := by decide
      rw [hdl] at hl
      have hll : (toL "/..").length = 3 := by decide
      rw [hll] at hl
      omega
  have hBeqT : (t == toL "/..") = false := by
    rcases hb : t == toL "/.." with - | -
    · rfl
    · rw [beq_iff_eq] at hb
      rw [hb] at hlast
      exact absurd hlast (by decide)
  have hPref : (toL "/../").isPrefixOf (t ++ default_doc.take k) =
      (toL "/../").isPrefixOf t := by
    rw [hxcons]
    exact pref_boundary _ t 'i' _ (by decide) hne
  have hSub : ∀ pat ∈ [toL "/../", toL "%2e%2e", toL "%2E%2E", toL "%2e.", toL ".%2e",
      toL "%2E."], hasSub pat (t ++ default_doc.take k) = hasSub pat t := by
    intro pat hpat
    rw [hxcons]
    rw [sub_boundary pat t 'i' _ (pats_ne_nil pat hpat) (i_not_mem pat hpat)]
    have h2 : hasSub pat ('i' :: (toL "ndex.html").take (k - 1)) = false := by
      show (pat.isPrefixOf ('i' :: (toL "ndex.html").take (k - 1)) ||
        hasSub pat ((toL "ndex.html").take (k - 1))) = false
      rw [pref_boundary0 pat 'i' _ (pats_ne_nil pat hpat) (i_not_mem pat hpat),
        subx_false pat hpat (k - 1)]
      rfl
    rw [h2, Bool.or_false]
  have hSuf : (toL "/..").isSuffixOf (t ++ default_doc.take k) = false :=
    suffix_take_false k hk1 hk2 t
  have hSufT : (toL "/..").isSuffixOf t = false := suffix_slash t hlast
  unfold contains_traversal
  rw [hContains, hBeq, hBeqT, hPref, hSuf, hSufT,
    hSub (toL "/../") (by decide),
    hSub (toL "%2e%2e") (by decide),
    hSub (toL "%2E%2E") (by decide),
    hSub (toL "%2e.") (by decide),
    hSub (toL ".%2e") (by decide),
    hSub (toL "%2E.") (by decide)]
  simp only [Bool.and_false]

theorem ddoc_take_getLast (j : Nat) (h1 : 1 ≤ j) (h2 : j ≤ 10) :
    ¬ (default_doc.take j).getLast? = some '/' := by
  have hb : ∀ i, 1 ≤ i → i < 11 → ¬ (default_doc.take i).getLast? = some '/' := by decide
  exact hb j h1 (by omega)

theorem after_strip_overflow (fs : FS) (root T : List Char) (sz : Nat)
    (hroot : 1 ≤ root.length) (hne : T ≠ []) (hlast : T.getLast? = some '/')
    (hlo : 4086 ≤ T.length) (hhi : T.length ≤ 4094) :
    resolveAfterStrip fs root T sz =
      resolveAfterStrip fs root (T ++ default_doc.take (4095 - T.length)) sz := by
  have hk1 : 1 ≤ 4095 - T.length := by omega
  have hk2 : 4095 - T.length ≤ 10 := by omega
  have hdl : default_doc.length = 10 := by decide
  have htrans := traversal_transfer T (4095 - T.length) hk1 hk2 hne hlast (by omega)
  have hxne : default_doc.take (4095 - T.length) ≠ [] := by
    rw [ddoc_take_cons _ hk1]
    simp
  unfold resolveAfterStrip
  rw [if_neg hne, if_neg (show ¬(T ++ default_doc.take (4095 - T.length) = []) from by
    simp [List.append_eq_nil, hne])]
  rw [htrans]
  by_cases hct : contains_traversal T = true
  · rw [if_pos hct, if_pos hct]
  · rw [if_neg hct, if_neg hct]
    have hnT : normalizeTarget T = none := by
      unfold normalizeTarget
      rw [if_neg (by
        intro h
        have := congrArg List.length h
        simp [toL] at this
        omega)]
      rw [if_pos hlast]
      rw [if_pos (by omega)]
    have hnTd : normalizeTarget (T ++ default_doc.take (4095 - T.length)) =
        some (T ++ default_doc.take (4095 - T.length)) := by
      unfold normalizeTarget
      rw [if_neg (by
        intro h
        have := congrArg List.length h
        rw [List.length_append, List.length_take] at this
        simp [toL] at this
        omega)]
      rw [if_neg (by
        rw [List.getLast?_append_of_ne_nil _ hxne]
        exact ddoc_take_getLast _ hk1 hk2)]
    rw [hnT, hnTd]
    dsimp only []
    rw [if_pos (by
      rw [List.length_append, List.length_take]
      omega)]

theorem after_strip_fits (fs : FS) (root T : List Char) (sz : Nat)
    (hne : T ≠ []) (hlast : T.getLast? = some '/') (hfit : T.length ≤ 4085) :
    resolveAfterStrip fs root T sz = resolveAfterStrip fs root (T ++ default_doc) sz := by
  have hdl : default_doc.length = 10 := by decide
  have htl : 1 ≤ T.length := List.length_pos.mpr hne
  by_cases hT1 : T = toL "/"
  · rw [hT1, show toL "/" ++ default_doc = toL "/index.html" from rfl]
    rfl
  · have hk10 : default_doc.take 10 = default_doc := by decide
    have htrans := traversal_transfer T 10 (by omega) (by omega) hne hlast (by omega)
    rw [hk10] at htrans
    unfold resolveAfterStrip
    rw [if_neg hne, if_neg (show ¬(T ++ default_doc = []) from by
      simp [List.append_eq_nil, hne])]
    rw [htrans]
    by_cases hct : contains_traversal T = true
    · rw [if_pos hct, if_pos hct]
    · rw [if_neg hct, if_neg hct]
      have hnT : normalizeTarget T = some (T ++ default_doc) := by
        unfold normalizeTarget
        rw [if_neg hT1, if_pos hlast, if_neg (by omega)]
      have hnTd : normalizeTarget (T ++ default_doc) = some (T ++ default_doc) := by
        unfold normalizeTarget
        rw [if_neg (by
          intro h
          have := congrArg List.length h
          rw [List.length_append] at this
          simp [toL] at this
          omega)]
        rw [if_neg (by
          rw [List.getLast?_append_of_ne_nil _ (by decide : default_doc ≠ [])]
          decide)]
      rw [hnT, hnTd]

/-- Claim C8: resolving the root marker `"/"`, or any target ending in a
separator, yields the same result as resolving the same target with the
default document name `index.html` appended (`resolve_path` appends it
itself before canonicalizing). -/
theorem resolve_default_doc (fs : FS) (root t : List Char) (sz : Nat)
    (hroot : 1 ≤ root.length) (hhead : t.head? = some '/')
    (hlast : t.getLast? = some '/') :
    resolve_path fs root t sz = resolve_path fs root (t ++ default_doc) sz := by
  rcases t with - | ⟨c0, t'⟩
  · exact absurd hhead (by simp)
  · have hc0 : c0 = '/' := by simpa using hhead
    subst hc0
    unfold resolve_path
    by_cases hsz : sz = 0
    · rw [if_pos hsz, if_pos hsz]
    · rw [if_neg hsz, if_neg hsz]
      show resolveAfterStrip fs root (stripTarget ('/' :: t')) sz =
        resolveAfterStrip fs root (stripTarget (('/' :: t') ++ default_doc)) sz
      by_cases hA : ((('/' :: t').takeWhile
          (fun c => c != nulC && c != '?' && c != '#')).length) = ('/' :: t').length
      · have hTW : ('/' :: t').takeWhile (fun c => c != nulC && c != '?' && c != '#') =
            '/' :: t' := (List.takeWhile_prefix _).eq_of_length hA
        have hTWt : stripTarget ('/' :: t') = ('/' :: t').take 4095 := by
          unfold stripTarget
          rw [hTW]
        have hTWd : stripTarget (('/' :: t') ++ default_doc) =
            (('/' :: t') ++ default_doc).take 4095 := by
          unfold stripTarget
          rw [List.takeWhile_append, if_pos hA,
            show default_doc.takeWhile (fun c => c != nulC && c != '?' && c != '#') =
              default_doc from rfl]
        rcases Nat.lt_or_ge (('/' :: t').length) 4095 with hlen | hlen
        · have hstript : stripTarget ('/' :: t') = '/' :: t' := by
            rw [hTWt]
            exact List.take_of_length_le (by omega)
          rcases Nat.lt_or_ge 4085 (('/' :: t').length) with hB2b | hB2a
          · have hstripd : stripTarget (('/' :: t') ++ default_doc) =
                ('/' :: t') ++ default_doc.take (4095 - ('/' :: t').length) := by
              rw [hTWd, List.take_append_eq_append_take,
                List.take_of_length_le (by omega)]
            rw [hstript, hstripd]
            exact after_strip_overflow fs root ('/' :: t') sz hroot (by simp) hlast
              (by omega) (by omega)
          · have hstripd : stripTarget (('/' :: t') ++ default_doc) =
                ('/' :: t') ++ default_doc := by
              rw [hTWd]
              refine List.take_of_length_le ?_
              rw [List.length_append]
              have hdl : default_doc.length = 10 := by decide
              omega
            rw [hstript, hstripd]
            exact after_strip_fits fs root ('/' :: t') sz (by simp) hlast (by omega)
        · have heq : stripTarget (('/' :: t') ++ default_doc) = stripTarget ('/' :: t') := by
            rw [hTWd, hTWt, List.take_append_eq_append_take,
              show 4095 - ('/' :: t').length = 0 by omega, List.take_zero,
              List.append_nil]
          rw [heq]
      · have heq : stripTarget (('/' :: t') ++ default_doc) = stripTarget ('/' :: t') := by
          unfold stripTarget
          rw [List.takeWhile_append, if_neg hA]
        rw [heq]

theorem resolve_default_doc_witness :
    resolve_path fsW (toL "/srv") (toL "/") 4096 =
      resolve_path fsW (toL "/srv") (toL "/" ++ default_doc) 4096 :=
  resolve_default_doc fsW (toL "/srv") (toL "/") 4096 (by decide) (by decide) (by decide)
